import Mathlib

/-!
Verification of the XML node-tree core of TSDuck (`ts::xml::Node`,
file `src/libtsduck/tsxmlNode.cpp`) against its natural-language
specification.

The C++ node objects are embedded shallowly as an arena: a total map
from numeric identifiers to node records.  Raw pointers become
`Option Nat` (null pointer = `none`), and the intrusive circular
sibling list of `RingNode` becomes a pair of identifier fields
`ringNextId` / `ringPrevId` on every node.  All operations of
`tsxmlNode.cpp` (`clear`, `reparent`, `nextSibling`, `parseContinue`)
are translated statement by statement.  The recursive destruction in
`clear` is written with an explicit fuel argument; every theorem that
needs it carries a "enough fuel" hypothesis.
-/

namespace ts.xml

/-- The closed set of node kinds (the C++ code uses subclassing of
`ts::xml::Node` plus `dynamic_cast` dispatch over Document,
Declaration, Element and Text). -/
inductive NodeKind where
  | DOCUMENT
  | DECLARATION
  | ELEMENT
  | TEXT
deriving DecidableEq

/-- The `ClosingType` marker of an element: `<a>` is OPEN, `<a/>` is
SELF_CLOSED, `</a>` is CLOSING (declared in `tsxmlNode.h`; the
constructor in `tsxmlNode.cpp` initializes `_closingType(OPEN)`). -/
inductive ClosingType where
  | OPEN
  | SELF_CLOSED
  | CLOSING
deriving DecidableEq

/-- One `ts::xml::Node` object: the fields `_value`, `_parent`,
`_firstChild`, `_inputLineNum`, `_closingType` of `tsxmlNode.h`,
plus the intrusive ring links of the `RingNode` base class and a kind
tag replacing the C++ subclass identity. -/
structure Node where
  kind : NodeKind
  value : String
  parent : Option Nat
  firstChild : Option Nat
  inputLineNum : Nat
  closingType : ClosingType
  ringNextId : Nat
  ringPrevId : Nat
deriving DecidableEq

/-- The heap of node objects: a total map from identifiers to nodes. -/
abbrev Arena : Type := Nat → Node

/-- Write one node of the arena. -/
def upd (a : Arena) (i : Nat) (n : Node) : Arena :=
  fun j => if j = i then n else a j

/-- Modelled from the spec: `ringIsAlone` of the intrusive circular
list class `ts::RingNode` (its file `tsRingNode.h` is not among the
provided sources; the spec says "`ringIsAlone` returns true exactly
when a node's next pointer refers to itself"). -/
def ringAlone (a : Arena) (i : Nat) : Bool :=
  (a i).ringNextId == i

/-- Modelled from the spec: `ringNext` of `ts::RingNode` returns the
ring-next member. -/
def ringNextOf (a : Arena) (i : Nat) : Nat :=
  (a i).ringNextId

/-- Modelled from the spec: `ringInsertBefore(anchor)` of
`ts::RingNode` "splices the node immediately preceding `anchor` in
circular order", touching only adjacent links. -/
def ringInsertBefore (a : Arena) (i anchor : Nat) : Arena :=
  let prv := (a anchor).ringPrevId
  let a1 := upd a i { a i with ringNextId := anchor, ringPrevId := prv }
  let a2 := upd a1 prv { a1 prv with ringNextId := i }
  upd a2 anchor { a2 anchor with ringPrevId := i }

/-- Modelled from the spec: `ringRemove` of `ts::RingNode` "splices
the node out and re-links its former neighbors"; afterwards the node
is alone in its own ring (its links refer to itself). -/
def ringRemove (a : Arena) (i : Nat) : Arena :=
  let nxt := (a i).ringNextId
  let prv := (a i).ringPrevId
  let a1 := upd a prv { a prv with ringNextId := nxt }
  let a2 := upd a1 nxt { a1 nxt with ringPrevId := prv }
  upd a2 i { a2 i with ringNextId := i, ringPrevId := i }

/-- `ts::xml::Node::reparent` (tsxmlNode.cpp): no-op when the parent
does not change; otherwise detach from the current parent (advancing
the parent's `_firstChild` when this node was the designated first
child), set the new parent, and insert at the end of the new parent's
ring of children by splicing "before the first child". -/
def reparent (a : Arena) (i : Nat) (newParent : Option Nat) : Arena :=
  if newParent = (a i).parent then a
  else
    let a1 :=
      match (a i).parent with
      | none => a
      | some p =>
        let ad :=
          if (a p).firstChild = some i then
            upd a p { a p with
              firstChild := if ringAlone a i then none else some (ringNextOf a i) }
          else a
        ringRemove ad i
    let a2 := upd a1 i { a1 i with parent := newParent }
    match newParent with
    | none => a2
    | some np =>
      match (a2 np).firstChild with
      | none => upd a2 np { a2 np with firstChild := some i }
      | some fc => ringInsertBefore a2 i fc

/-- `ts::xml::Node::nextSibling` (tsxmlNode.cpp): the ring-next node,
or `none` when that would wrap to this node itself or to the parent's
`_firstChild`. -/
def nextSibling (a : Arena) (i : Nat) : Option Nat :=
  let nxt := (a i).ringNextId
  if nxt = i then none
  else
    match (a i).parent with
    | none => some nxt
    | some p => if (a p).firstChild = some nxt then none else some nxt

mutual

/-- The C++ `delete` of a node: the virtual destructor of
`ts::xml::Node` runs `clear(); reparent(0);` in that order.  The
fuel argument bounds the recursion depth. -/
def deleteNode : Nat → Arena → Nat → Arena
  | 0, a, _ => a
  | fuel+1, a, i => reparent (clearNode fuel a i) i none

/-- `ts::xml::Node::clear` (tsxmlNode.cpp): delete the child at
`_firstChild` until none remains, then reset `_value` and
`_inputLineNum`. -/
def clearNode : Nat → Arena → Nat → Arena
  | 0, a, _ => a
  | fuel+1, a, i =>
    let a1 := clearLoop fuel a i
    upd a1 i { a1 i with value := "", inputLineNum := 0 }

/-- The `while (_firstChild != 0) delete _firstChild;` loop of
`clear`. -/
def clearLoop : Nat → Arena → Nat → Arena
  | 0, a, _ => a
  | fuel+1, a, i =>
    match (a i).firstChild with
    | none => a
    | some c => clearLoop fuel (deleteNode fuel a c) i

end

/-- Collect the sibling list starting at node `i` by iterated
`nextSibling`, with fuel. -/
def sibListAux (a : Arena) : Nat → Nat → List Nat
  | 0, _ => []
  | fuel+1, i =>
    i :: (match nextSibling a i with
          | none => []
          | some j => sibListAux a fuel j)

/-- The children of `p` in iteration order: start at `_firstChild` and
follow `nextSibling`. -/
def sibList (a : Arena) (fuel : Nat) (p : Nat) : List Nat :=
  match (a p).firstChild with
  | none => []
  | some c => sibListAux a fuel c

/-- One entry of the diagnostics sink (`parser.errorAtLine`). -/
structure Diag where
  line : Nat
  msg : String
deriving DecidableEq

/-- Modelled from the spec: one result of the external tokenizer
capability `identify()` (class `ts::xml::Parser`, not among the
provided sources), together with the outcome of the candidate's own
nested `parseContinue` call.  The subclass overrides of
`parseContinue` (Document, Declaration, Element, Text - their .cpp
files are not among the provided sources) are abstracted by the
oracle fields `nestedOk` (the boolean the recursive call returns) and
`nestedDiags` (the diagnostics that recursive call emits). -/
structure Candidate where
  kind : NodeKind
  closing : ClosingType
  value : String
  line : Nat
  nestedOk : Bool
  nestedDiags : List Diag
deriving DecidableEq

/-- The state threaded through a parse: the arena, a fresh-identifier
counter (every identifier at or above `nextId` is unallocated), the
append-only diagnostics sink, and the list of destroyed candidates. -/
structure PState where
  arena : Arena
  nextId : Nat
  errors : List Diag
  destroyed : List Nat

/-- The node object a candidate denotes at allocation time: the
`Node(size_t line)` constructor of tsxmlNode.cpp sets
`_parent(this)` (self sentinel), `_firstChild(0)`, the line number,
and self ring links; the tokenizer fills in value, kind and closing
type. -/
def newNode (c : Candidate) (id : Nat) : Node :=
  { kind := c.kind, value := c.value, parent := some id, firstChild := none,
    inputLineNum := c.line, closingType := c.closing,
    ringNextId := id, ringPrevId := id }

/-- Message of the `errorAtLine` call on a failed nested parse. -/
def parsingErrorMsg : String := "parsing error"

/-- Message of the `errorAtLine` call on a declaration outside a
document. -/
def misplacedNotInDocMsg : String :=
  "misplaced declaration, not directly inside a document"

/-- Message of the `errorAtLine` call on a declaration preceded by a
non-declaration child. -/
def misplacedNotFirstMsg : String :=
  "misplaced declaration, must be at the beginning of the document"

/-- The `for (ch = firstChild(); thisOneOk && ch != 0; ...)` loop of
`parseContinue`: walk the already-attached children; at the first one
that is not a Declaration, report the error and stop (setting
`thisOneOk` false stops the loop). -/
def declChildScan (a : Arena) (line : Nat) :
    Nat → Option Nat → List Diag → Bool × List Diag
  | _, none, errs => (true, errs)
  | 0, some _, errs => (true, errs)
  | fuel+1, some ch, errs =>
    if (a ch).kind = NodeKind.DECLARATION then
      declChildScan a line fuel (nextSibling a ch) errs
    else
      (false, errs ++ [⟨line, misplacedNotFirstMsg⟩])

/-- One iteration of the `while ((node = parser.identify()) != 0)`
loop of `ts::xml::Node::parseContinue` (tsxmlNode.cpp), processing
one candidate under context `ctx`: allocate the node, account for its
nested parse (oracle), apply the declaration checks, and either
attach it with `reparent(this)` or destroy it and mark the parse
failed.  Note that the element closing-tag handling in the source is
entirely inside a comment block, so an ELEMENT candidate of any
closing type is treated like any other node here, exactly as the live
code does. -/
def processCand (ctx : Nat) (acc : Bool × PState) (c : Candidate) :
    Bool × PState :=
  let result := acc.1
  let st := acc.2
  let id := st.nextId
  let a0 := upd st.arena id (newNode c id)
  let errs0 := st.errors ++ c.nestedDiags
  let stepRes : Bool × List Diag :=
    if c.nestedOk = false then
      (false, errs0 ++ [⟨c.line, parsingErrorMsg⟩])
    else if c.kind = NodeKind.DECLARATION then
      let fst : Bool × List Diag :=
        if (a0 ctx).kind = NodeKind.DOCUMENT then (true, errs0)
        else (false, errs0 ++ [⟨c.line, misplacedNotInDocMsg⟩])
      if fst.1 then declChildScan a0 c.line (id+1) ((a0 ctx).firstChild) fst.2
      else fst
    else
      (true, errs0)
  if stepRes.1 then
    (result,
      { arena := reparent a0 id (some ctx), nextId := id + 1,
        errors := stepRes.2, destroyed := st.destroyed })
  else
    (false,
      { arena := deleteNode (id + 1) a0 id, nextId := id + 1,
        errors := stepRes.2, destroyed := st.destroyed ++ [id] })

/-- `ts::xml::Node::parseContinue` (tsxmlNode.cpp): loop on every
token `identify()` finds, starting with `result = true`. -/
def parseContinue (ctx : Nat) (st : PState) (cs : List Candidate) :
    Bool × PState :=
  cs.foldl (processCand ctx) (true, st)

/-- The relation "v is the ring-next of u". -/
def nextRel (a : Arena) (u v : Nat) : Prop := (a u).ringNextId = v

/-- The relation "u is the ring-prev of v". -/
def prevRel (a : Arena) (u v : Nat) : Prop := (a v).ringPrevId = u

/-- A `Chain'` decision procedure that the kernel can evaluate (the
library instance is built with tactics and does not reduce). -/
instance (priority := 1100) instDecChainKer {α : Type} {R : α → α → Prop}
    [DecidableRel R] : ∀ l : List α, Decidable (List.Chain' R l)
  | [] => isTrue List.chain'_nil
  | [x] => isTrue (List.chain'_singleton x)
  | x :: y :: t =>
    haveI : Decidable (List.Chain' R (y :: t)) := instDecChainKer (y :: t)
    decidable_of_iff (R x y ∧ List.Chain' R (y :: t)) List.chain'_cons.symm

instance (a : Arena) : DecidableRel (nextRel a) := fun u v =>
  inferInstanceAs (Decidable ((a u).ringNextId = v))

instance (a : Arena) : DecidableRel (prevRel a) := fun u v =>
  inferInstanceAs (Decidable ((a v).ringPrevId = u))

/-- The children of `p` are exactly the list `L`, in ring order:
`_firstChild` designates the head, the ring links run circularly
along `L` in both directions, and every member's parent is `p`. -/
def childrenRep (a : Arena) (p : Nat) : List Nat → Prop
  | [] => (a p).firstChild = none
  | x :: xs =>
    (a p).firstChild = some x ∧
    List.Chain' (nextRel a) ((x :: xs) ++ [x]) ∧
    List.Chain' (prevRel a) ((x :: xs) ++ [x]) ∧
    ∀ i ∈ x :: xs, (a i).parent = some p

instance (a : Arena) (p : Nat) : ∀ L, Decidable (childrenRep a p L)
  | [] => inferInstanceAs (Decidable ((a p).firstChild = none))
  | x :: xs =>
    inferInstanceAs (Decidable ((a p).firstChild = some x ∧
      List.Chain' (nextRel a) ((x :: xs) ++ [x]) ∧
      List.Chain' (prevRel a) ((x :: xs) ++ [x]) ∧
      ∀ i ∈ x :: xs, (a i).parent = some p))

/-- A node that has just been produced by the tokenizer and attached
nowhere: parent is the constructor's self sentinel (or already
null), no children, alone in its ring. -/
def freshNode (a : Arena) (n : Nat) : Prop :=
  ((a n).parent = some n ∨ (a n).parent = none) ∧
  (a n).firstChild = none ∧
  (a n).ringNextId = n ∧ (a n).ringPrevId = n

instance (a : Arena) (n : Nat) : Decidable (freshNode a n) :=
  inferInstanceAs (Decidable
    (((a n).parent = some n ∨ (a n).parent = none) ∧
     (a n).firstChild = none ∧
     (a n).ringNextId = n ∧ (a n).ringPrevId = n))

theorem upd_same (a : Arena) (i : Nat) (n : Node) : upd a i n i = n := by
  simp [upd]

theorem upd_ne (a : Arena) (i : Nat) (n : Node) (j : Nat) (h : j ≠ i) :
    upd a i n j = a j := by
  simp [upd, h]

theorem upd_self (a : Arena) (i : Nat) : upd a i (a i) = a := by
  funext j
  by_cases h : j = i <;> simp [upd, h]

theorem upd_apply (a : Arena) (i : Nat) (n : Node) (j : Nat) :
    upd a i n j = if j = i then n else a j := rfl

/-- Two node records agree on every field except the ring links. -/
def eqNonRing (m1 m2 : Node) : Prop :=
  m1.kind = m2.kind ∧ m1.value = m2.value ∧ m1.parent = m2.parent ∧
  m1.firstChild = m2.firstChild ∧ m1.inputLineNum = m2.inputLineNum ∧
  m1.closingType = m2.closingType

theorem eqNonRing_refl (m : Node) : eqNonRing m m :=
  ⟨rfl, rfl, rfl, rfl, rfl, rfl⟩

theorem eqNonRing_trans {m1 m2 m3 : Node}
    (h1 : eqNonRing m1 m2) (h2 : eqNonRing m2 m3) : eqNonRing m1 m3 := by
  obtain ⟨a1, a2, a3, a4, a5, a6⟩ := h1
  obtain ⟨b1, b2, b3, b4, b5, b6⟩ := h2
  exact ⟨a1.trans b1, a2.trans b2, a3.trans b3, a4.trans b4,
    a5.trans b5, a6.trans b6⟩

theorem upd_eqNonRing (a : Arena) (i : Nat) (n : Node)
    (h : eqNonRing n (a i)) (j : Nat) : eqNonRing ((upd a i n) j) (a j) := by
  by_cases hj : j = i
  · subst hj; rw [upd_same]; exact h
  · rw [upd_ne _ _ _ _ hj]; exact eqNonRing_refl _

theorem ringInsertBefore_eqNonRing (a : Arena) (i anchor j : Nat) :
    eqNonRing ((ringInsertBefore a i anchor) j) (a j) := by
  simp only [ringInsertBefore]
  refine eqNonRing_trans (upd_eqNonRing _ _ _ ?_ j)
    (eqNonRing_trans (upd_eqNonRing _ _ _ ?_ j)
      (upd_eqNonRing _ _ _ ?_ j)) <;>
    exact ⟨rfl, rfl, rfl, rfl, rfl, rfl⟩

theorem ringRemove_eqNonRing (a : Arena) (i j : Nat) :
    eqNonRing ((ringRemove a i) j) (a j) := by
  simp only [ringRemove]
  refine eqNonRing_trans (upd_eqNonRing _ _ _ ?_ j)
    (eqNonRing_trans (upd_eqNonRing _ _ _ ?_ j)
      (upd_eqNonRing _ _ _ ?_ j)) <;>
    exact ⟨rfl, rfl, rfl, rfl, rfl, rfl⟩

theorem ringInsertBefore_spec (a : Arena) (i anchor : Nat)
    (hia : i ≠ anchor) (hiprv : i ≠ (a anchor).ringPrevId) :
    ((ringInsertBefore a i anchor) i).ringNextId = anchor ∧
    ((ringInsertBefore a i anchor) i).ringPrevId = (a anchor).ringPrevId ∧
    ((ringInsertBefore a i anchor) ((a anchor).ringPrevId)).ringNextId = i ∧
    ((ringInsertBefore a i anchor) anchor).ringPrevId = i ∧
    (∀ j, j ≠ i → j ≠ anchor → j ≠ (a anchor).ringPrevId →
      (ringInsertBefore a i anchor) j = a j) ∧
    (∀ j, j ≠ i → j ≠ (a anchor).ringPrevId →
      ((ringInsertBefore a i anchor) j).ringNextId = (a j).ringNextId) ∧
    (∀ j, j ≠ i → j ≠ anchor →
      ((ringInsertBefore a i anchor) j).ringPrevId = (a j).ringPrevId) := by
  simp only [ringInsertBefore, upd_apply]
  refine ⟨?_, ?_, ?_, ?_, fun j h1 h2 h3 => ?_, fun j h1 h2 => ?_,
    fun j h1 h2 => ?_⟩ <;>
    (split_ifs <;> subst_vars <;> first | rfl | omega)

theorem ringRemove_spec (a : Arena) (i : Nat)
    (hn : (a i).ringNextId ≠ i) (hp : (a i).ringPrevId ≠ i) :
    ((ringRemove a i) i).ringNextId = i ∧
    ((ringRemove a i) i).ringPrevId = i ∧
    ((ringRemove a i) ((a i).ringPrevId)).ringNextId = (a i).ringNextId ∧
    ((ringRemove a i) ((a i).ringNextId)).ringPrevId = (a i).ringPrevId ∧
    (∀ j, j ≠ i → j ≠ (a i).ringPrevId → j ≠ (a i).ringNextId →
      (ringRemove a i) j = a j) ∧
    (∀ j, j ≠ i → j ≠ (a i).ringPrevId →
      ((ringRemove a i) j).ringNextId = (a j).ringNextId) ∧
    (∀ j, j ≠ i → j ≠ (a i).ringNextId →
      ((ringRemove a i) j).ringPrevId = (a j).ringPrevId) := by
  simp only [ringRemove, upd_apply]
  refine ⟨?_, ?_, ?_, ?_, fun j h1 h2 h3 => ?_, fun j h1 h2 => ?_,
    fun j h1 h2 => ?_⟩ <;>
    (split_ifs <;> subst_vars <;> first | rfl | omega)

theorem upd_next_self (a : Arena) (i v : Nat) (hv : (a i).ringNextId = v) :
    upd a i { a i with ringNextId := v } = a := by
  subst hv
  exact upd_self a i

theorem upd_prev_self (a : Arena) (i w : Nat) (hw : (a i).ringPrevId = w) :
    upd a i { a i with ringPrevId := w } = a := by
  subst hw
  exact upd_self a i

theorem upd_ring_self (a : Arena) (i v w : Nat)
    (hv : (a i).ringNextId = v) (hw : (a i).ringPrevId = w) :
    upd a i { a i with ringNextId := v, ringPrevId := w } = a := by
  subst hv
  subst hw
  exact upd_self a i

theorem ringRemove_alone (a : Arena) (i : Nat)
    (h1 : (a i).ringNextId = i) (h2 : (a i).ringPrevId = i) :
    ringRemove a i = a := by
  simp only [ringRemove]
  rw [h1, h2, upd_next_self a i i h1, upd_prev_self a i i h2,
    upd_ring_self a i i i h1 h2]

/-- Two node records agree on kind, value, line number and closing
type (the fields no tree operation ever modifies). -/
def eqMeta (m1 m2 : Node) : Prop :=
  m1.kind = m2.kind ∧ m1.value = m2.value ∧
  m1.inputLineNum = m2.inputLineNum ∧ m1.closingType = m2.closingType

theorem eqMeta_refl (m : Node) : eqMeta m m := ⟨rfl, rfl, rfl, rfl⟩

theorem eqMeta_trans {m1 m2 m3 : Node}
    (h1 : eqMeta m1 m2) (h2 : eqMeta m2 m3) : eqMeta m1 m3 :=
  ⟨h1.1.trans h2.1, h1.2.1.trans h2.2.1, h1.2.2.1.trans h2.2.2.1,
    h1.2.2.2.trans h2.2.2.2⟩

theorem eqNonRing_eqMeta {m1 m2 : Node} (h : eqNonRing m1 m2) : eqMeta m1 m2 :=
  ⟨h.1, h.2.1, h.2.2.2.2.1, h.2.2.2.2.2⟩

theorem upd_eqMeta (a : Arena) (i : Nat) (n : Node)
    (h : eqMeta n (a i)) (j : Nat) : eqMeta ((upd a i n) j) (a j) := by
  by_cases hj : j = i
  · subst hj; rw [upd_same]; exact h
  · rw [upd_ne _ _ _ _ hj]; exact eqMeta_refl _

theorem upd_parent_pres (a : Arena) (t : Nat) (n : Node)
    (h : n.parent = (a t).parent) (j : Nat) :
    ((upd a t n) j).parent = (a j).parent := by
  by_cases hj : j = t
  · subst hj; rw [upd_same]; exact h
  · rw [upd_ne _ _ _ _ hj]

theorem upd_firstChild_parent (a : Arena) (t : Nat) (fc : Option Nat)
    (j : Nat) :
    ((upd a t { a t with firstChild := fc }) j).parent = (a j).parent := by
  by_cases hj : j = t
  · subst hj; rw [upd_same]
  · rw [upd_ne _ _ _ _ hj]

/-- `reparent` never changes kind, value, line number or closing type
of any node. -/
theorem reparent_eqMeta (a : Arena) (i : Nat) (p : Option Nat) (j : Nat) :
    eqMeta ((reparent a i p) j) (a j) := by
  by_cases hg : p = (a i).parent
  · rw [reparent, if_pos hg]; exact eqMeta_refl _
  · rw [reparent, if_neg hg]
    have step1 : ∀ b : Arena, ∀ k,
        eqMeta ((match (b i).parent with
          | none => b
          | some p =>
            ringRemove
              (if (b p).firstChild = some i then
                upd b p { b p with
                  firstChild :=
                    if ringAlone b i then none else some (ringNextOf b i) }
              else b) i) k) (b k) := by
      intro b k
      rcases hpar : (b i).parent with _ | pp
      · exact eqMeta_refl _
      · refine eqMeta_trans (eqNonRing_eqMeta (ringRemove_eqNonRing _ i k)) ?_
        by_cases hfc : (b pp).firstChild = some i
        · rw [if_pos hfc]
          refine upd_eqMeta _ _ _ ?_ k
          exact ⟨rfl, rfl, rfl, rfl⟩
        · rw [if_neg hfc]; exact eqMeta_refl _
    refine eqMeta_trans ?_ (step1 a j)
    rcases p with _ | np
    · refine upd_eqMeta _ _ _ ?_ j
      exact ⟨rfl, rfl, rfl, rfl⟩
    · dsimp only
      rcases hfc2 : ((upd (match (a i).parent with
          | none => a
          | some p =>
            ringRemove
              (if (a p).firstChild = some i then
                upd a p { a p with
                  firstChild :=
                    if ringAlone a i then none else some (ringNextOf a i) }
              else a) i) i
            { (match (a i).parent with
              | none => a
              | some p =>
                ringRemove
                  (if (a p).firstChild = some i then
                    upd a p { a p with
                      firstChild :=
                        if ringAlone a i then none
                        else some (ringNextOf a i) }
                  else a) i) i with parent := some np }) np).firstChild
        with _ | fc <;> simp only [hfc2]
      · refine eqMeta_trans (upd_eqMeta _ _ _ ?_ j)
          (upd_eqMeta _ _ _ ?_ j) <;> exact ⟨rfl, rfl, rfl, rfl⟩
      · refine eqMeta_trans (eqNonRing_eqMeta (ringInsertBefore_eqNonRing _ _ _ j))
          (upd_eqMeta _ _ _ ?_ j)
        exact ⟨rfl, rfl, rfl, rfl⟩

/-- After `reparent a i p`, the parent of `i` is `p` (the source
assigns `_parent = newParent` and never touches it again). -/
theorem reparent_parent_self (a : Arena) (i : Nat) (p : Option Nat) :
    ((reparent a i p) i).parent = p := by
  by_cases hg : p = (a i).parent
  · rw [reparent, if_pos hg]; exact hg.symm
  · rw [reparent, if_neg hg]
    have step1 : ∀ b : Arena, ∀ k,
        ((match (b i).parent with
          | none => b
          | some p =>
            ringRemove
              (if (b p).firstChild = some i then
                upd b p { b p with
                  firstChild :=
                    if ringAlone b i then none else some (ringNextOf b i) }
              else b) i) k).parent = (b k).parent := by
      intro b k
      rcases hpar : (b i).parent with _ | pp
      · rfl
      · rw [(ringRemove_eqNonRing _ i k).2.2.1]
        by_cases hfc : (b pp).firstChild = some i
        · rw [if_pos hfc]
          exact upd_firstChild_parent _ _ _ k
        · rw [if_neg hfc]
    set a1 := (match (a i).parent with
      | none => a
      | some p =>
        ringRemove
          (if (a p).firstChild = some i then
            upd a p { a p with
              firstChild :=
                if ringAlone a i then none else some (ringNextOf a i) }
          else a) i) with ha1
    have h2 : ((upd a1 i { a1 i with parent := p }) i).parent = p := by
      rw [upd_same]
    rcases p with _ | np
    · exact h2
    · dsimp only
      rcases hfc2 : ((upd a1 i { a1 i with parent := some np }) np).firstChild
        with _ | fc <;> simp only [hfc2]
      · rw [upd_firstChild_parent _ _ _ i]; exact h2
      · rw [(ringInsertBefore_eqNonRing _ _ _ i).2.2.1]; exact h2

/-- `reparent` is a no-op when the requested parent is already the
current parent (the first test of the source). -/
theorem reparent_noop (a : Arena) (i : Nat) (p : Option Nat)
    (h : (a i).parent = p) : reparent a i p = a := by
  rw [reparent, if_pos h.symm]

/-- Claim C7: `reparent(p)` is idempotent: when `p` is already the
current parent (including both none) the call is a no-op, and calling
`reparent` twice in a row with the same `p` produces the same arena
as calling it once. -/
theorem c7_reparent_idempotent (a : Arena) (i : Nat) (p : Option Nat) :
    ((a i).parent = p → reparent a i p = a) ∧
    reparent (reparent a i p) i p = reparent a i p :=
  ⟨fun h => reparent_noop a i p h,
   reparent_noop (reparent a i p) i p (reparent_parent_self a i p)⟩

theorem childrenRep_nil (a : Arena) (p : Nat) :
    childrenRep a p [] ↔ (a p).firstChild = none := Iff.rfl

theorem childrenRep_cons (a : Arena) (p x : Nat) (xs : List Nat) :
    childrenRep a p (x :: xs) ↔
      (a p).firstChild = some x ∧
      List.Chain' (nextRel a) ((x :: xs) ++ [x]) ∧
      List.Chain' (prevRel a) ((x :: xs) ++ [x]) ∧
      ∀ i ∈ x :: xs, (a i).parent = some p := Iff.rfl

theorem chain'_nextRel_congr (a b : Arena) :
    ∀ (L : List Nat),
      (∀ u ∈ L.dropLast, (b u).ringNextId = (a u).ringNextId) →
      List.Chain' (nextRel a) L → List.Chain' (nextRel b) L
  | [], _, _ => List.chain'_nil
  | [x], _, _ => List.chain'_singleton x
  | x :: y :: t, h, hc => by
    rw [List.chain'_cons] at hc ⊢
    have hd2 : (x :: y :: t).dropLast = x :: (y :: t).dropLast := by simp
    refine ⟨?_, chain'_nextRel_congr a b (y :: t) (fun u hu => h u ?_) hc.2⟩
    · show (b x).ringNextId = y
      rw [h x (by rw [hd2]; exact List.mem_cons_self x _)]
      exact hc.1
    · rw [hd2]
      exact List.mem_cons_of_mem x hu

theorem chain'_prevRel_congr (a b : Arena) :
    ∀ (L : List Nat),
      (∀ v ∈ L.tail, (b v).ringPrevId = (a v).ringPrevId) →
      List.Chain' (prevRel a) L → List.Chain' (prevRel b) L
  | [], _, _ => List.chain'_nil
  | [x], _, _ => List.chain'_singleton x
  | x :: y :: t, h, hc => by
    rw [List.chain'_cons] at hc ⊢
    refine ⟨?_, chain'_prevRel_congr a b (y :: t)
      (fun v hv => h v (List.mem_cons_of_mem y hv)) hc.2⟩
    · show (b y).ringPrevId = x
      rw [h y (List.mem_cons_self y t)]
      exact hc.1

theorem chain'_pair (R : Nat → Nat → Prop) :
    ∀ (pre : List Nat) {cur nxt : Nat} {rest : List Nat},
      List.Chain' R (pre ++ cur :: nxt :: rest) → R cur nxt
  | [], _, _, _, h => (List.chain'_cons.1 h).1
  | _ :: pre', _, _, _, h => chain'_pair R pre' h.tail

theorem chain'_wrap (R : Nat → Nat → Prop) (x : Nat) (xs : List Nat)
    (h : List.Chain' R ((x :: xs) ++ [x])) :
    R ((x :: xs).getLast (List.cons_ne_nil x xs)) x := by
  rcases List.chain'_append.1 h with ⟨-, -, hlink⟩
  refine hlink _ ?_ x ?_
  · rw [List.getLast?_eq_getLast (x :: xs) (List.cons_ne_nil x xs)]
    rfl
  · rfl

theorem getLast_not_dropLast {l : List Nat} (hn : l.Nodup) (h : l ≠ []) :
    l.getLast h ∉ l.dropLast := by
  intro hmem
  have e := List.dropLast_append_getLast h
  rw [← e] at hn
  rcases List.nodup_append.1 hn with ⟨-, -, hd⟩
  exact hd hmem (by simp)

/-- Attaching a fresh node to parent `p` appends it at the end of the
children ring: the source comment says inserting "before the first
child" means "at end of list". -/
theorem reparent_attach (a : Arena) (p n : Nat) (L : List Nat)
    (hrep : childrenRep a p L) (hfresh : freshNode a n)
    (hnd : (p :: L).Nodup) (hn : n ∉ p :: L) :
    childrenRep (reparent a n (some p)) p (L ++ [n]) ∧
    (∀ j, j ∉ n :: p :: L → reparent a n (some p) j = a j) ∧
    (∀ j, j ≠ n → ((reparent a n (some p)) j).parent = (a j).parent) ∧
    (∀ j, j ≠ p →
      ((reparent a n (some p)) j).firstChild = (a j).firstChild) := by
  have hnp : n ≠ p := fun h => hn (h ▸ List.mem_cons_self _ _)
  have hpn : p ≠ n := hnp.symm
  have hnL : n ∉ L := fun h => hn (List.mem_cons_of_mem _ h)
  have hpL : p ∉ L := (List.nodup_cons.1 hnd).1
  have hLnd : L.Nodup := (List.nodup_cons.1 hnd).2
  have hg : ¬ (some p = (a n).parent) := by
    rcases hfresh.1 with hps | hps <;> rw [hps]
    · intro hh
      exact hnp (Option.some.inj hh).symm
    · simp
  have hb : reparent a n (some p) =
      (match ((upd a n { a n with parent := some p }) p).firstChild with
        | none =>
          upd (upd a n { a n with parent := some p }) p
            { (upd a n { a n with parent := some p }) p with
                firstChild := some n }
        | some fc =>
          ringInsertBefore (upd a n { a n with parent := some p }) n fc) := by
    rw [reparent, if_neg hg]
    rcases hfresh.1 with hps | hps <;> rw [hps] <;> dsimp only
    · rw [if_neg (by rw [hfresh.2.1]; simp),
        ringRemove_alone a n hfresh.2.2.1 hfresh.2.2.2]
  rcases L with _ | ⟨x, xs⟩
  · -- no previous children: the node becomes the only child
    have hfc0 : ((upd a n { a n with parent := some p }) p).firstChild =
        none := by
      rw [upd_ne _ _ _ _ hpn]
      exact hrep
    rw [hb, hfc0]
    dsimp only
    refine ⟨?_, ?_, ?_, ?_⟩
    · simp only [List.nil_append]
      rw [childrenRep_cons]
      refine ⟨by rw [upd_same], ?_, ?_, ?_⟩
      · refine List.chain'_cons.2 ⟨?_, List.chain'_singleton n⟩
        show ((upd (upd a n { a n with parent := some p }) p
          { (upd a n { a n with parent := some p }) p with
              firstChild := some n }) n).ringNextId = n
        rw [upd_ne _ _ _ _ hnp, upd_same]
        exact hfresh.2.2.1
      · refine List.chain'_cons.2 ⟨?_, List.chain'_singleton n⟩
        show ((upd (upd a n { a n with parent := some p }) p
          { (upd a n { a n with parent := some p }) p with
              firstChild := some n }) n).ringPrevId = n
        rw [upd_ne _ _ _ _ hnp, upd_same]
        exact hfresh.2.2.2
      · intro i hi
        rcases List.mem_singleton.1 hi with rfl
        rw [upd_ne _ _ _ _ hnp, upd_same]
    · intro j hj
      have hjn : j ≠ n := fun h => hj (h ▸ List.mem_cons_self _ _)
      have hjp : j ≠ p := fun h => hj (h ▸ List.mem_cons_of_mem _
        (List.mem_cons_self _ _))
      rw [upd_ne _ _ _ _ hjp, upd_ne _ _ _ _ hjn]
    · intro j hj
      rw [upd_firstChild_parent _ _ _ j, upd_ne _ _ _ _ hj]
    · intro j hj
      rw [upd_ne _ _ _ _ hj]
      by_cases hjn : j = n
      · subst hjn
        rw [upd_same]
      · rw [upd_ne _ _ _ _ hjn]
  · -- existing children x :: xs: insert before first child = append
    rw [childrenRep_cons] at hrep
    obtain ⟨hfc, hcn, hcp, hpar⟩ := hrep
    have hfcx : ((upd a n { a n with parent := some p }) p).firstChild =
        some x := by
      rw [upd_ne _ _ _ _ hpn]
      exact hfc
    rw [hb, hfcx]
    dsimp only
    set A2 := upd a n { a n with parent := some p } with hA2
    have hA2ne : ∀ j, j ≠ n → A2 j = a j := fun j hj => upd_ne _ _ _ _ hj
    have hA2n : A2 n = { a n with parent := some p } := upd_same _ _ _
    have hxxs : (x :: xs) ≠ [] := List.cons_ne_nil x xs
    have hx_ne_n : x ≠ n := fun h => hnL (h ▸ List.mem_cons_self x xs)
    have hlast_mem : (x :: xs).getLast hxxs ∈ x :: xs := List.getLast_mem hxxs
    have hlast_ne_n : (x :: xs).getLast hxxs ≠ n :=
      fun h => hnL (h ▸ hlast_mem)
    have hprev_x : (a x).ringPrevId = (x :: xs).getLast hxxs :=
      chain'_wrap (prevRel a) x xs hcp
    have hprvA2 : (A2 x).ringPrevId = (x :: xs).getLast hxxs := by
      rw [hA2ne x hx_ne_n]
      exact hprev_x
    obtain ⟨S1, S2, S3, S4, S5, S6, S7⟩ :=
      ringInsertBefore_spec A2 n x hx_ne_n.symm
        (by rw [hprvA2]; exact hlast_ne_n.symm)
    rw [hprvA2] at S2 S3 S5 S6
    have hbpar : ∀ j, ((ringInsertBefore A2 n x) j).parent = (A2 j).parent :=
      fun j => (ringInsertBefore_eqNonRing A2 n x j).2.2.1
    have hbfc : ∀ j,
        ((ringInsertBefore A2 n x) j).firstChild = (A2 j).firstChild :=
      fun j => (ringInsertBefore_eqNonRing A2 n x j).2.2.2.1
    refine ⟨?_, ?_, ?_, ?_⟩
    · simp only [List.cons_append]
      rw [childrenRep_cons]
      have hlist : (x :: (xs ++ [n])) ++ [x] = (x :: xs) ++ ([n] ++ [x]) := by
        simp
      refine ⟨?_, ?_, ?_, ?_⟩
      · rw [hbfc p, hA2ne p hpn]
        exact hfc
      · rw [hlist]
        refine List.Chain'.append ?_ ?_ ?_
        · refine chain'_nextRel_congr A2 _ (x :: xs) (fun u hu => ?_)
            (chain'_nextRel_congr a A2 (x :: xs) (fun u hu => ?_)
              hcn.left_of_append)
          · refine S6 u (fun h => hnL (h ▸ List.dropLast_subset _ hu))
              (fun h => getLast_not_dropLast hLnd hxxs (h ▸ hu))
          · rw [hA2ne u (fun h => hnL (h ▸ List.dropLast_subset _ hu))]
        · exact List.chain'_cons.2 ⟨S1, List.chain'_singleton x⟩
        · intro u hu v hv
          rw [List.getLast?_eq_getLast _ hxxs, Option.mem_some_iff] at hu
          have hv' : v = n := (Option.mem_some_iff.1 hv).symm
          rw [← hu, hv']
          exact S3
      · rw [hlist]
        refine List.Chain'.append ?_ ?_ ?_
        · refine chain'_prevRel_congr A2 _ (x :: xs) (fun v hv => ?_)
            (chain'_prevRel_congr a A2 (x :: xs) (fun v hv => ?_)
              hcp.left_of_append)
          · refine S7 v (fun h => hnL (h ▸ List.mem_cons_of_mem x hv))
              (fun h => (List.nodup_cons.1 hLnd).1 (h ▸ hv))
          · rw [hA2ne v (fun h => hnL (h ▸ List.mem_cons_of_mem x hv))]
        · exact List.chain'_cons.2 ⟨S4, List.chain'_singleton x⟩
        · intro u hu v hv
          rw [List.getLast?_eq_getLast _ hxxs, Option.mem_some_iff] at hu
          have hv' : v = n := (Option.mem_some_iff.1 hv).symm
          rw [← hu, hv']
          exact S2
      · intro i hi
        rw [hbpar i]
        rcases List.mem_cons.1 hi with rfl | hi2
        · rw [hA2ne i hx_ne_n]
          exact hpar i (List.mem_cons_self _ _)
        · rcases List.mem_append.1 hi2 with hi3 | hi4
          · rw [hA2ne i (fun h => hnL (h ▸ List.mem_cons_of_mem x hi3))]
            exact hpar i (List.mem_cons_of_mem x hi3)
          · rcases List.mem_singleton.1 hi4 with rfl
            rw [hA2n]
    · intro j hj
      have hjn : j ≠ n := fun h => hj (h ▸ List.mem_cons_self _ _)
      have hjp : j ≠ p := fun h => hj (h ▸ List.mem_cons_of_mem _
        (List.mem_cons_self _ _))
      have hjL : j ∉ x :: xs := fun h => hj (List.mem_cons_of_mem _
        (List.mem_cons_of_mem _ h))
      rw [S5 j hjn (fun h => hjL (h ▸ List.mem_cons_self x xs))
          (fun h => hjL (h ▸ hlast_mem)),
        hA2ne j hjn]
    · intro j hj
      rw [hbpar j, hA2ne j hj]
    · intro j hj
      rw [hbfc j]
      by_cases hjn : j = n
      · subst hjn
        rw [hA2n]
      · rw [hA2ne j hjn]

/-- Walking `nextSibling` from any member of a well-formed children
ring yields that member followed by the rest of the list, and stops
(`none`) after the last member. -/
theorem sibListAux_spec (a : Arena) (p x : Nat) (xs : List Nat)
    (hrep : childrenRep a p (x :: xs)) (hnd : (p :: x :: xs).Nodup) :
    ∀ (post pre : List Nat) (cur : Nat) (fuel : Nat),
      x :: xs = pre ++ cur :: post → post.length < fuel →
      sibListAux a fuel cur = cur :: post := by
  rw [childrenRep_cons] at hrep
  obtain ⟨hfc, hcn, hcp, hpar⟩ := hrep
  have hLnd : (x :: xs).Nodup := (List.nodup_cons.1 hnd).2
  intro post
  induction post with
  | nil =>
    intro pre cur fuel hdec hfuel
    rcases fuel with _ | f
    · omega
    have hcur_mem : cur ∈ x :: xs := by
      rw [hdec]
      exact List.mem_append.2 (Or.inr (List.mem_cons_self _ _))
    have hnext : (a cur).ringNextId = x := by
      have hc2 : List.Chain' (nextRel a) (pre ++ cur :: x :: []) := by
        have he : (x :: xs) ++ [x] = pre ++ cur :: x :: [] := by
          rw [hdec]; simp
        rw [← he]
        exact hcn
      exact chain'_pair (nextRel a) pre hc2
    have hstop : nextSibling a cur = none := by
      unfold nextSibling
      dsimp only
      rw [hnext]
      by_cases hxc : x = cur
      · rw [if_pos hxc]
      · rw [if_neg hxc, hpar cur hcur_mem]
        dsimp only
        rw [if_pos hfc]
    unfold sibListAux
    rw [hstop]
  | cons q post' ih =>
    intro pre cur fuel hdec hfuel
    rcases fuel with _ | f
    · omega
    have hcur_mem : cur ∈ x :: xs := by
      rw [hdec]
      exact List.mem_append.2 (Or.inr (List.mem_cons_self _ _))
    have hnext : (a cur).ringNextId = q := by
      have hc2 : List.Chain' (nextRel a) (pre ++ cur :: q :: (post' ++ [x])) := by
        have he : (x :: xs) ++ [x] = pre ++ cur :: q :: (post' ++ [x]) := by
          rw [hdec]; simp
        rw [← he]
        exact hcn
      exact chain'_pair (nextRel a) pre hc2
    have hsub_nd : (cur :: q :: post').Nodup := by
      have : (x :: xs).Nodup := hLnd
      rw [hdec] at this
      exact (List.nodup_append.1 this).2.1
    have hqcur : q ≠ cur := by
      intro h
      exact (List.nodup_cons.1 hsub_nd).1 (h ▸ List.mem_cons_self q post')
    have hqxs : q ∈ xs := by
      rcases pre with _ | ⟨r, pre'⟩
      · simp only [List.nil_append] at hdec
        rw [List.cons.injEq] at hdec
        rw [hdec.2]
        exact List.mem_cons_self _ _
      · rw [List.cons_append, List.cons.injEq] at hdec
        rw [hdec.2]
        exact List.mem_append.2 (Or.inr (List.mem_cons_of_mem _
          (List.mem_cons_self _ _)))
    have hqx : q ≠ x := fun h => (List.nodup_cons.1 hLnd).1 (h ▸ hqxs)
    have hstep : nextSibling a cur = some q := by
      unfold nextSibling
      dsimp only
      rw [hnext, if_neg hqcur, hpar cur hcur_mem]
      dsimp only
      rw [if_neg (fun h => hqx (Option.some.inj (hfc.symm.trans h)).symm)]
    show (sibListAux a (f + 1) cur) = cur :: q :: post'
    unfold sibListAux
    rw [hstep]
    dsimp only
    have := ih (pre ++ [cur]) q f (by rw [hdec]; simp) (by
      simp only [List.length_cons] at hfuel; omega)
    rw [this]

/-- Reading the whole child list of `p` from `firstChild`. -/
theorem sibList_spec (a : Arena) (p : Nat) (L : List Nat)
    (hrep : childrenRep a p L) (hnd : (p :: L).Nodup) (fuel : Nat)
    (hfuel : L.length ≤ fuel) :
    sibList a fuel p = L := by
  rcases L with _ | ⟨x, xs⟩
  · unfold sibList
    rw [(childrenRep_nil a p).1 hrep]
  · unfold sibList
    rw [(childrenRep_cons a p x xs).1 hrep |>.1]
    exact sibListAux_spec a p x xs hrep hnd xs [] x fuel rfl
      (by simp only [List.length_cons] at hfuel; omega)

/-- Attach a sequence of raw nodes to the same parent, one
`reparent` at a time (the way `parseContinue` attaches children). -/
def attachAll (a : Arena) (ns : List Nat) (p : Nat) : Arena :=
  ns.foldl (fun acc n => reparent acc n (some p)) a

theorem attachAll_rep (p : Nat) :
    ∀ (ns : List Nat) (a : Arena) (L : List Nat),
      childrenRep a p L → (p :: (L ++ ns)).Nodup →
      (∀ n ∈ ns, freshNode a n) →
      childrenRep (attachAll a ns p) p (L ++ ns)
  | [], a, L, hrep, _, _ => by
    rw [List.append_nil]
    exact hrep
  | n :: ns', a, L, hrep, hnd, hfr => by
    rcases List.nodup_cons.1 hnd with ⟨hpmem, happ⟩
    rcases List.nodup_append.1 happ with ⟨hLnd, hcons_nd, hdisj⟩
    have hnd1 : (p :: L).Nodup :=
      List.nodup_cons.2 ⟨fun h => hpmem (List.mem_append_left _ h), hLnd⟩
    have hn1 : n ∉ p :: L := by
      intro h
      rcases List.mem_cons.1 h with rfl | hmem
      · exact hpmem (List.mem_append_right _ (List.mem_cons_self _ _))
      · exact hdisj hmem (List.mem_cons_self _ _)
    have step := reparent_attach a p n L hrep (hfr n (List.mem_cons_self _ _))
      hnd1 hn1
    have hfr' : ∀ m ∈ ns', freshNode (reparent a n (some p)) m := by
      intro m hm
      have hmn : m ≠ n := fun h =>
        (List.nodup_cons.1 hcons_nd).1 (h ▸ hm)
      have hmp : m ≠ p := fun h => hpmem (h ▸ List.mem_append_right _
        (List.mem_cons_of_mem _ hm))
      have hmL : m ∉ L := fun h =>
        hdisj h (List.mem_cons_of_mem _ hm)
      have hfrm := hfr m (List.mem_cons_of_mem _ hm)
      have heq : reparent a n (some p) m = a m := by
        refine step.2.1 m ?_
        intro hmem
        rcases List.mem_cons.1 hmem with h1 | h2
        · exact hmn h1
        · rcases List.mem_cons.1 h2 with h3 | h4
          · exact hmp h3
          · exact hmL h4
      unfold freshNode at hfrm ⊢
      rw [heq]
      exact hfrm
    have hnd' : (p :: ((L ++ [n]) ++ ns')).Nodup := by
      have he : (L ++ [n]) ++ ns' = L ++ n :: ns' := by simp
      rw [he]
      exact hnd
    have hrec := attachAll_rep p ns' (reparent a n (some p)) (L ++ [n])
      step.1 hnd' hfr'
    have he2 : L ++ n :: ns' = (L ++ [n]) ++ ns' := by simp
    rw [he2]
    exact hrec

/-- Claim C5: `reparent` onto a parent with existing children inserts
the fresh node immediately before `firstChild`, i.e. at the end of
`nextSibling` iteration order, so a sequence of nodes attached one
after another to the same parent is traversed in attachment order. -/
theorem c5_reparent_preserves_order (a : Arena) (p : Nat)
    (L ns : List Nat) (fuel : Nat)
    (hrep : childrenRep a p L) (hnd : (p :: (L ++ ns)).Nodup)
    (hfresh : ∀ n ∈ ns, freshNode a n)
    (hfuel : (L ++ ns).length ≤ fuel) :
    childrenRep (attachAll a ns p) p (L ++ ns) ∧
    sibList (attachAll a ns p) fuel p = L ++ ns := by
  have h1 := attachAll_rep p ns a L hrep hnd hfresh
  exact ⟨h1, sibList_spec _ p (L ++ ns) h1 hnd fuel hfuel⟩

/-- Claim C6: starting from `firstChild` and iterating `nextSibling`
visits every child of a well-formed ring exactly once (the list `L`
itself, which has no duplicates) and stops after the last one; a
childless node has `firstChild = none`. -/
theorem c6_ring_invariant (a : Arena) (p : Nat) (L : List Nat)
    (fuel : Nat) (hrep : childrenRep a p L) (hnd : (p :: L).Nodup)
    (hfuel : L.length ≤ fuel) :
    sibList a fuel p = L ∧ (L = [] → (a p).firstChild = none) :=
  ⟨sibList_spec a p L hrep hnd fuel hfuel,
   fun h => (childrenRep_nil a p).1 (h ▸ hrep)⟩

/-- A small concrete arena used by witnesses: node 0 is a document,
node 1 an element named a, node 2 an element named b, all unattached
and alone in their rings. -/
def wArena : Arena := fun j =>
  if j = 0 then
    { kind := NodeKind.DOCUMENT, value := "", parent := none,
      firstChild := none, inputLineNum := 1,
      closingType := ClosingType.OPEN, ringNextId := 0, ringPrevId := 0 }
  else if j = 1 then
    { kind := NodeKind.ELEMENT, value := "a", parent := some 1,
      firstChild := none, inputLineNum := 1,
      closingType := ClosingType.OPEN, ringNextId := 1, ringPrevId := 1 }
  else
    { kind := NodeKind.ELEMENT, value := "b", parent := some j,
      firstChild := none, inputLineNum := 2,
      closingType := ClosingType.OPEN, ringNextId := j, ringPrevId := j }

/-- A concrete arena in which node 0 is a document whose children
ring is exactly [1, 2]. -/
def wArenaKids : Arena := fun j =>
  if j = 0 then
    { kind := NodeKind.DOCUMENT, value := "", parent := none,
      firstChild := some 1, inputLineNum := 1,
      closingType := ClosingType.OPEN, ringNextId := 0, ringPrevId := 0 }
  else if j = 1 then
    { kind := NodeKind.ELEMENT, value := "a", parent := some 0,
      firstChild := none, inputLineNum := 1,
      closingType := ClosingType.OPEN, ringNextId := 2, ringPrevId := 2 }
  else if j = 2 then
    { kind := NodeKind.ELEMENT, value := "b", parent := some 0,
      firstChild := none, inputLineNum := 2,
      closingType := ClosingType.OPEN, ringNextId := 1, ringPrevId := 1 }
  else
    { kind := NodeKind.ELEMENT, value := "z", parent := some j,
      firstChild := none, inputLineNum := 3,
      closingType := ClosingType.OPEN, ringNextId := j, ringPrevId := j }

/-- Witness for C5 at a concrete input: attaching fresh nodes 1, 2, 3
to the childless node 0 yields children 1, 2, 3 in that order. -/
theorem c5_reparent_preserves_order_witness :
    childrenRep (attachAll wArena [1, 2, 3] 0) 0 ([] ++ [1, 2, 3]) ∧
    sibList (attachAll wArena [1, 2, 3] 0) 3 0 = [] ++ [1, 2, 3] :=
  c5_reparent_preserves_order wArena 0 [] [1, 2, 3] 3 (by decide)
    (by decide) (by decide) (by decide)

/-- Witness for C6 at a concrete input. -/
theorem c6_ring_invariant_witness :
    sibList wArenaKids 2 0 = [1, 2] ∧
    ([1, 2] = ([] : List Nat) → (wArenaKids 0).firstChild = none) :=
  c6_ring_invariant wArenaKids 0 [1, 2] 2 (by decide) (by decide) (by decide)

/-- Witness for C7 at a concrete input. -/
theorem c7_reparent_idempotent_witness :
    (((wArena 1).parent = some 0 → reparent wArena 1 (some 0) = wArena)) ∧
    reparent (reparent wArena 1 (some 0)) 1 (some 0) =
      reparent wArena 1 (some 0) :=
  c7_reparent_idempotent wArena 1 (some 0)

theorem nodup_length_le (L : List Nat) (n : Nat) (hnd : L.Nodup)
    (h : ∀ j ∈ L, j < n) : L.length ≤ n := by
  classical
  have h1 : L.toFinset ⊆ Finset.range n := by
    intro j hj
    rw [List.mem_toFinset] at hj
    exact Finset.mem_range.2 (h j hj)
  have h2 := Finset.card_le_card h1
  rw [List.toFinset_card_of_nodup hnd, Finset.card_range] at h2
  exact h2

theorem childrenRep_parent {a : Arena} {p : Nat} {M : List Nat}
    (h : childrenRep a p M) {i : Nat} (hi : i ∈ M) :
    (a i).parent = some p := by
  rcases M with _ | ⟨x, xs⟩
  · cases hi
  · exact ((childrenRep_cons a p x xs).1 h).2.2.2 i hi

theorem childrenRep_congr (a b : Arena) (p : Nat) (L : List Nat)
    (h : ∀ j ∈ p :: L, b j = a j) (hrep : childrenRep a p L) :
    childrenRep b p L := by
  rcases L with _ | ⟨x, xs⟩
  · rw [childrenRep_nil] at hrep ⊢
    rw [h p (List.mem_cons_self _ _)]
    exact hrep
  · rw [childrenRep_cons] at hrep ⊢
    obtain ⟨hfc, hcn, hcp, hpar⟩ := hrep
    have hmemL : ∀ u, u ∈ x :: xs → b u = a u :=
      fun u hu => h u (List.mem_cons_of_mem _ hu)
    refine ⟨?_, ?_, ?_, ?_⟩
    · rw [h p (List.mem_cons_self _ _)]
      exact hfc
    · refine chain'_nextRel_congr a b _ (fun u hu => ?_) hcn
      have hum : u ∈ x :: xs := by
        have := List.dropLast_subset _ hu
        rcases List.mem_append.1 this with h1 | h2
        · exact h1
        · rcases List.mem_singleton.1 h2 with rfl
          exact List.mem_cons_self _ _
      rw [hmemL u hum]
    · refine chain'_prevRel_congr a b _ (fun v hv => ?_) hcp
      have hvm : v ∈ x :: xs := by
        have hvt : v ∈ (x :: xs) ++ [x] := List.mem_of_mem_tail hv
        rcases List.mem_append.1 hvt with h1 | h2
        · exact h1
        · rcases List.mem_singleton.1 h2 with rfl
          exact List.mem_cons_self _ _
      rw [hmemL v hvm]
    · intro i hi
      rw [hmemL i hi]
      exact hpar i hi

/-- `clearLoop` does nothing on a node with no children. -/
theorem clearLoop_no_children (fuel : Nat) (a : Arena) (i : Nat)
    (h : (a i).firstChild = none) : clearLoop fuel a i = a := by
  rcases fuel with _ | f
  · rfl
  · unfold clearLoop
    rw [h]

/-- Deleting a freshly allocated candidate (no children, alone in its
ring, parent the constructor sentinel or null) only detaches it:
afterwards its parent and firstChild are `none` and every other node
is untouched. -/
theorem deleteNode_fresh (fuel : Nat) (hf : 0 < fuel) (a : Arena) (i : Nat)
    (hfc : (a i).firstChild = none)
    (hpar : (a i).parent = some i ∨ (a i).parent = none)
    (hn : (a i).ringNextId = i) (hp : (a i).ringPrevId = i) :
    ((deleteNode fuel a i) i).parent = none ∧
    ((deleteNode fuel a i) i).firstChild = none ∧
    (∀ j, j ≠ i → deleteNode fuel a i j = a j) := by
  rcases fuel with _ | f
  · omega
  have hX : ∀ j, (clearNode f a i) j = a j ∨
      (clearNode f a i) j = upd a i { a i with value := "", inputLineNum := 0 } j := by
    intro j
    rcases f with _ | f'
    · exact Or.inl rfl
    · unfold clearNode
      rw [clearLoop_no_children f' a i hfc]
      exact Or.inr rfl
  have hXi_par : ((clearNode f a i) i).parent = (a i).parent := by
    rcases hX i with h1 | h1 <;> rw [h1]
    rw [upd_same]
  have hXi_fc : ((clearNode f a i) i).firstChild = none := by
    rcases hX i with h1 | h1 <;> rw [h1]
    · exact hfc
    · rw [upd_same]
      exact hfc
  have hXi_n : ((clearNode f a i) i).ringNextId = i := by
    rcases hX i with h1 | h1 <;> rw [h1]
    · exact hn
    · rw [upd_same]
      exact hn
  have hXi_p : ((clearNode f a i) i).ringPrevId = i := by
    rcases hX i with h1 | h1 <;> rw [h1]
    · exact hp
    · rw [upd_same]
      exact hp
  have hXj : ∀ j, j ≠ i → (clearNode f a i) j = a j := by
    intro j hj
    rcases hX j with h1 | h1 <;> rw [h1]
    rw [upd_ne _ _ _ _ hj]
  set X := clearNode f a i with hXdef
  have hstep : deleteNode (f + 1) a i = reparent X i none := rfl
  rw [hstep]
  rcases hpar' : (X i).parent with _ | q
  · -- already no parent: reparent is a no-op
    rw [reparent_noop X i none hpar']
    exact ⟨hpar', hXi_fc, hXj⟩
  · have hqi : q = i := by
      rw [hXi_par] at hpar'
      rcases hpar with h1 | h1
      · rw [h1] at hpar'
        exact (Option.some.inj hpar').symm
      · rw [h1] at hpar'
        cases hpar'
    rw [hqi] at hpar'
    rw [reparent, hpar', if_neg (show ¬((none : Option Nat) = some i) by simp)]
    dsimp only
    rw [if_neg (by rw [hXi_fc]; simp), ringRemove_alone X i hXi_n hXi_p]
    refine ⟨by rw [upd_same], by rw [upd_same]; exact hXi_fc, ?_⟩
    intro j hj
    rw [upd_ne _ _ _ _ hj]
    exact hXj j hj

/-- The child scan of `parseContinue` either accepts with the error
list untouched or rejects having appended exactly the single
"beginning of the document" message. -/
theorem declChildScan_shape (a : Arena) (line : Nat) :
    ∀ (fuel : Nat) (cur : Option Nat) (errs : List Diag),
      declChildScan a line fuel cur errs = (true, errs) ∨
      declChildScan a line fuel cur errs =
        (false, errs ++ [⟨line, misplacedNotFirstMsg⟩])
  | fuel, none, errs => by
    rcases fuel with _ | f <;> exact Or.inl rfl
  | 0, some _, errs => Or.inl rfl
  | fuel+1, some ch, errs => by
    unfold declChildScan
    by_cases hk : (a ch).kind = NodeKind.DECLARATION
    · rw [if_pos hk]
      exact declChildScan_shape a line fuel (nextSibling a ch) errs
    · rw [if_neg hk]
      exact Or.inr rfl

theorem declChildScan_none (a : Arena) (line fuel : Nat) (errs : List Diag) :
    declChildScan a line fuel none errs = (true, errs) := by
  rcases fuel with _ | f <;> rfl

/-- The child scan is exactly "are all nodes on the sibling walk
declarations". -/
theorem declChildScan_eq (a : Arena) (line : Nat) :
    ∀ (fuel : Nat) (cur : Nat) (errs : List Diag),
      declChildScan a line fuel (some cur) errs =
        (if (sibListAux a fuel cur).all
            (fun i => decide ((a i).kind = NodeKind.DECLARATION)) then
          (true, errs)
        else (false, errs ++ [⟨line, misplacedNotFirstMsg⟩]))
  | 0, cur, errs => by
    unfold declChildScan sibListAux
    simp
  | fuel+1, cur, errs => by
    unfold declChildScan sibListAux
    by_cases hk : (a cur).kind = NodeKind.DECLARATION
    · rw [if_pos hk]
      rcases hns : nextSibling a cur with _ | nxt
      · simp [hk, declChildScan_none]
      · rw [declChildScan_eq a line fuel nxt errs]
        simp [hk]
    · rw [if_neg hk]
      simp [hk]

/-- A failed nested parse: "parsing error" is reported, the candidate
is destroyed, the overall result becomes false. -/
theorem processCand_nested_fail (ctx : Nat) (res : Bool) (st : PState)
    (c : Candidate) (hok : c.nestedOk = false) :
    processCand ctx (res, st) c =
      (false,
        { arena := deleteNode (st.nextId + 1)
            (upd st.arena st.nextId (newNode c st.nextId)) st.nextId,
          nextId := st.nextId + 1,
          errors := st.errors ++ c.nestedDiags ++ [⟨c.line, parsingErrorMsg⟩],
          destroyed := st.destroyed ++ [st.nextId] }) := by
  unfold processCand
  dsimp only
  rw [hok]
  simp

/-- A candidate that is not a declaration and whose nested parse
succeeded is attached via `reparent(this)` with no diagnostics of its
own. -/
theorem processCand_other_ok (ctx : Nat) (res : Bool) (st : PState)
    (c : Candidate) (hok : c.nestedOk = true)
    (hk : c.kind ≠ NodeKind.DECLARATION) :
    processCand ctx (res, st) c =
      (res,
        { arena := reparent (upd st.arena st.nextId (newNode c st.nextId))
            st.nextId (some ctx),
          nextId := st.nextId + 1,
          errors := st.errors ++ c.nestedDiags,
          destroyed := st.destroyed }) := by
  unfold processCand
  dsimp only
  rw [hok]
  simp [hk]

/-- A declaration candidate in a non-document context: exactly the
"not directly inside a document" diagnostic is appended, the child
scan is skipped, the candidate is destroyed, the result is false. -/
theorem processCand_decl_notdoc (ctx : Nat) (res : Bool) (st : PState)
    (c : Candidate) (hok : c.nestedOk = true)
    (hk : c.kind = NodeKind.DECLARATION) (hctx : ctx ≠ st.nextId)
    (hdoc : (st.arena ctx).kind ≠ NodeKind.DOCUMENT) :
    processCand ctx (res, st) c =
      (false,
        { arena := deleteNode (st.nextId + 1)
            (upd st.arena st.nextId (newNode c st.nextId)) st.nextId,
          nextId := st.nextId + 1,
          errors := st.errors ++ c.nestedDiags ++
            [⟨c.line, misplacedNotInDocMsg⟩],
          destroyed := st.destroyed ++ [st.nextId] }) := by
  unfold processCand
  dsimp only
  rw [hok, hk]
  rw [upd_ne st.arena st.nextId (newNode c st.nextId) ctx hctx]
  simp [hdoc]

/-- A declaration candidate in a document context: the decision is
exactly the child scan over the already-attached children. -/
theorem processCand_decl_doc (ctx : Nat) (res : Bool) (st : PState)
    (c : Candidate) (hok : c.nestedOk = true)
    (hk : c.kind = NodeKind.DECLARATION) (hctx : ctx ≠ st.nextId)
    (hdoc : (st.arena ctx).kind = NodeKind.DOCUMENT) :
    processCand ctx (res, st) c =
      (if (declChildScan (upd st.arena st.nextId (newNode c st.nextId))
            c.line (st.nextId + 1) ((st.arena ctx).firstChild)
            (st.errors ++ c.nestedDiags)).1 then
        (res,
          { arena := reparent
              (upd st.arena st.nextId (newNode c st.nextId))
              st.nextId (some ctx),
            nextId := st.nextId + 1,
            errors := (declChildScan
              (upd st.arena st.nextId (newNode c st.nextId))
              c.line (st.nextId + 1) ((st.arena ctx).firstChild)
              (st.errors ++ c.nestedDiags)).2,
            destroyed := st.destroyed })
      else
        (false,
          { arena := deleteNode (st.nextId + 1)
              (upd st.arena st.nextId (newNode c st.nextId)) st.nextId,
            nextId := st.nextId + 1,
            errors := (declChildScan
              (upd st.arena st.nextId (newNode c st.nextId))
              c.line (st.nextId + 1) ((st.arena ctx).firstChild)
              (st.errors ++ c.nestedDiags)).2,
            destroyed := st.destroyed ++ [st.nextId] })) := by
  unfold processCand
  dsimp only
  rw [hok, hk]
  rw [upd_ne st.arena st.nextId (newNode c st.nextId) ctx hctx]
  simp [hdoc]

/-- A false overall result is never reset by later iterations. -/
theorem processCand_fst_false (ctx : Nat) (st : PState) (c : Candidate) :
    (processCand ctx (false, st) c).1 = false := by
  unfold processCand
  dsimp only
  split_ifs <;> rfl

theorem parseLoop_false (ctx : Nat) :
    ∀ (cs : List Candidate) (st : PState),
      (cs.foldl (processCand ctx) (false, st)).1 = false
  | [], _ => rfl
  | c :: cs', st => by
    rw [List.foldl_cons]
    have h := processCand_fst_false ctx st c
    rcases hpc : processCand ctx (false, st) c with ⟨r, st1⟩
    rw [hpc] at h
    dsimp at h
    rw [h]
    exact parseLoop_false ctx cs' st1

/-- Every iteration of `parseContinue` either accepts the candidate
(keeping the result, appending only the nested diagnostics,
destroying nothing) or rejects it (forcing the result false and
appending one line-tagged diagnostic of its own). -/
theorem processCand_cases (ctx : Nat) (res : Bool) (st : PState)
    (c : Candidate) :
    (c.nestedOk = true ∧
     (processCand ctx (res, st) c).1 = res ∧
     (processCand ctx (res, st) c).2.errors = st.errors ++ c.nestedDiags ∧
     (processCand ctx (res, st) c).2.destroyed = st.destroyed) ∨
    ((processCand ctx (res, st) c).1 = false ∧
     ∃ m, (processCand ctx (res, st) c).2.errors =
       st.errors ++ c.nestedDiags ++ [⟨c.line, m⟩]) := by
  rcases hok : c.nestedOk with _ | _
  · right
    rw [processCand_nested_fail ctx res st c hok]
    exact ⟨rfl, parsingErrorMsg, rfl⟩
  · by_cases hk : c.kind = NodeKind.DECLARATION
    · unfold processCand
      dsimp only
      rw [hok, hk]
      rw [if_neg (by simp : ¬(true = false)), if_pos rfl]
      by_cases hdoc : ((upd st.arena st.nextId (newNode c st.nextId))
          ctx).kind = NodeKind.DOCUMENT
      · rw [if_pos hdoc]
        dsimp only
        rcases declChildScan_shape
            (upd st.arena st.nextId (newNode c st.nextId)) c.line
            (st.nextId + 1)
            ((upd st.arena st.nextId (newNode c st.nextId)) ctx).firstChild
            (st.errors ++ c.nestedDiags) with hsc | hsc <;> rw [hsc]
        · left
          exact ⟨rfl, rfl, rfl, rfl⟩
        · right
          exact ⟨rfl, misplacedNotFirstMsg, rfl⟩
      · rw [if_neg hdoc]
        dsimp only
        right
        exact ⟨rfl, misplacedNotInDocMsg, rfl⟩
    · left
      rw [processCand_other_ok ctx res st c hok hk]
      exact ⟨rfl, rfl, rfl, rfl⟩

/-- If an iteration leaves the result true, it attached the candidate
with `reparent` and its state is exactly the attach form. -/
theorem processCand_ok_shape (ctx : Nat) (res : Bool) (st : PState)
    (c : Candidate) (h : (processCand ctx (res, st) c).1 = true) :
    res = true ∧
    processCand ctx (res, st) c =
      (res,
        { arena := reparent (upd st.arena st.nextId (newNode c st.nextId))
            st.nextId (some ctx),
          nextId := st.nextId + 1,
          errors := st.errors ++ c.nestedDiags,
          destroyed := st.destroyed }) := by
  rcases hok : c.nestedOk with _ | _
  · rw [processCand_nested_fail ctx res st c hok] at h
    cases h
  · by_cases hk : c.kind = NodeKind.DECLARATION
    · unfold processCand at h ⊢
      dsimp only at h ⊢
      rw [hok, hk] at h ⊢
      rw [if_neg (by simp : ¬(true = false)), if_pos rfl] at h ⊢
      by_cases hdoc : ((upd st.arena st.nextId (newNode c st.nextId))
          ctx).kind = NodeKind.DOCUMENT
      · rw [if_pos hdoc] at h ⊢
        dsimp only at h ⊢
        rcases declChildScan_shape
            (upd st.arena st.nextId (newNode c st.nextId)) c.line
            (st.nextId + 1)
            ((upd st.arena st.nextId (newNode c st.nextId)) ctx).firstChild
            (st.errors ++ c.nestedDiags) with hsc | hsc <;> rw [hsc] at h ⊢
        · exact ⟨h, rfl⟩
        · cases h
      · rw [if_neg hdoc] at h ⊢
        dsimp only at h
        cases h
    · rw [processCand_other_ok ctx res st c hok hk] at h ⊢
      exact ⟨h, rfl⟩

theorem parseLoop_errors_extend (ctx : Nat) :
    ∀ (cs : List Candidate) (res : Bool) (st : PState),
      ∃ junk, (cs.foldl (processCand ctx) (res, st)).2.errors =
        st.errors ++ junk
  | [], _, st => ⟨[], by simp⟩
  | c :: cs', res, st => by
    rw [List.foldl_cons]
    rcases hpc : processCand ctx (res, st) c with ⟨r, st1⟩
    have hext : ∃ j1, st1.errors = st.errors ++ j1 := by
      rcases processCand_cases ctx res st c with ⟨_, _, he, _⟩ | ⟨_, m, he⟩ <;>
        rw [hpc] at he
      · exact ⟨c.nestedDiags, he⟩
      · exact ⟨c.nestedDiags ++ [⟨c.line, m⟩], by rw [he]; simp⟩
    rcases hext with ⟨j1, hj1⟩
    rcases parseLoop_errors_extend ctx cs' r st1 with ⟨j2, hj2⟩
    exact ⟨j1 ++ j2, by rw [hj2, hj1]; simp⟩

/-- Core of claim C3 by induction over the token stream. -/
theorem parseLoop_true_iff (ctx : Nat) :
    ∀ (cs : List Candidate) (res : Bool) (st : PState),
      (∀ c ∈ cs, c.nestedDiags ≠ [] → c.nestedOk = false) →
      ((cs.foldl (processCand ctx) (res, st)).1 = true ↔
        res = true ∧
        (cs.foldl (processCand ctx) (res, st)).2.errors = st.errors)
  | [], res, st, _ => by simp
  | c :: cs', res, st, hsane => by
    rw [List.foldl_cons]
    rcases processCand_cases ctx res st c with ⟨hok, hr, he, _⟩ | ⟨hr, m, he⟩
    · have hdiags : c.nestedDiags = [] := by
        by_contra hne
        rw [hsane c (List.mem_cons_self _ _) hne] at hok
        cases hok
      rcases hpc : processCand ctx (res, st) c with ⟨r, st1⟩
      rw [hpc] at hr he
      dsimp only at hr he
      have hst1 : st1.errors = st.errors := by
        rw [he, hdiags, List.append_nil]
      have hIH := parseLoop_true_iff ctx cs' r st1
        (fun d hd => hsane d (List.mem_cons_of_mem _ hd))
      rw [hIH, hr, hst1]
    · rcases hpc : processCand ctx (res, st) c with ⟨r, st1⟩
      rw [hpc] at hr he
      dsimp only at hr he
      subst hr
      constructor
      · intro habs
        rw [parseLoop_false ctx cs' st1] at habs
        cases habs
      · rintro ⟨hres, herrs⟩
        exfalso
        rcases parseLoop_errors_extend ctx cs' false st1 with ⟨junk, hj⟩
        rw [hj, he] at herrs
        have hlen := congrArg List.length herrs
        simp only [List.length_append, List.length_cons,
          List.length_nil] at hlen
        omega

/-- Claim C3: the call returns true exactly when no structural error
was reported to the diagnostics sink during it, nested calls
included.  The hypothesis states the contract of the nested calls
(abstracted as an oracle): a nested call that reported diagnostics
returned false. -/
theorem c3_true_iff_no_new_errors (ctx : Nat) (st : PState)
    (cs : List Candidate)
    (hsane : ∀ c ∈ cs, c.nestedDiags ≠ [] → c.nestedOk = false) :
    ((parseContinue ctx st cs).1 = true ↔
      (parseContinue ctx st cs).2.errors = st.errors) := by
  have h := parseLoop_true_iff ctx cs true st hsane
  unfold parseContinue
  rw [h]
  simp

/-- A text candidate with a successful nested parse. -/
def cText : Candidate :=
  { kind := NodeKind.TEXT, closing := ClosingType.OPEN, value := "hello",
    line := 1, nestedOk := true, nestedDiags := [] }

/-- A declaration candidate with a successful nested parse. -/
def cDecl : Candidate :=
  { kind := NodeKind.DECLARATION, closing := ClosingType.OPEN,
    value := "xml", line := 2, nestedOk := true, nestedDiags := [] }

/-- Witness for C3 at a concrete input. -/
theorem c3_true_iff_no_new_errors_witness :
    ((parseContinue 0 ⟨wArena, 1, [], []⟩ [cText]).1 = true ↔
      (parseContinue 0 ⟨wArena, 1, [], []⟩ [cText]).2.errors = []) :=
  c3_true_iff_no_new_errors 0 ⟨wArena, 1, [], []⟩ [cText] (by decide)

/-- An arena whose node 0 is an open element named a (a non-document
context), all other nodes unattached. -/
def wArenaElem : Arena := fun j =>
  if j = 0 then
    { kind := NodeKind.ELEMENT, value := "a", parent := none,
      firstChild := none, inputLineNum := 1,
      closingType := ClosingType.OPEN, ringNextId := 0, ringPrevId := 0 }
  else
    { kind := NodeKind.ELEMENT, value := "b", parent := some j,
      firstChild := none, inputLineNum := 2,
      closingType := ClosingType.OPEN, ringNextId := j, ringPrevId := j }

/-- A closing-tag candidate, the token stream for an input such as
the stray `</c>` inside an open element a. -/
def cClose : Candidate :=
  { kind := NodeKind.ELEMENT, closing := ClosingType.CLOSING,
    value := "c", line := 3, nestedOk := true, nestedDiags := [] }

/-- Claim C1 against the live code: the closing-tag handling of
`parseContinue` exists only inside a comment block
(tsxmlNode.cpp lines 176-208), so a ClosingTag element is NOT matched
against the open element and NOT discarded: parsing `</c>` under the
open element a succeeds, reports no diagnostic, and attaches the
closing-tag node (value c) as an ordinary child. -/
theorem c1_closing_tag_is_attached :
    (parseContinue 0 ⟨wArenaElem, 1, [], []⟩ [cClose]).1 = true ∧
    (parseContinue 0 ⟨wArenaElem, 1, [], []⟩ [cClose]).2.errors = [] ∧
    ((parseContinue 0 ⟨wArenaElem, 1, [], []⟩ [cClose]).2.arena 0).firstChild
      = some 1 ∧
    ((parseContinue 0 ⟨wArenaElem, 1, [], []⟩ [cClose]).2.arena 1).parent
      = some 0 ∧
    ((parseContinue 0 ⟨wArenaElem, 1, [], []⟩ [cClose]).2.arena 1).value
      = "c" ∧
    ((parseContinue 0 ⟨wArenaElem, 1, [], []⟩ [cClose]).2.arena 1).closingType
      = ClosingType.CLOSING ∧
    (parseContinue 0 ⟨wArenaElem, 1, [], []⟩ [cClose]).2.destroyed = [] := by
  decide

/-- Claim C10: a declaration candidate processed while the context is
not a Document gets exactly one diagnostic (the "not directly inside
a document" message): the declarations-first scan is skipped because
`thisOneOk` is already false, so the "must be at the beginning of the
document" message is never also emitted. -/
theorem c10_one_diag_per_misplaced_decl (ctx : Nat) (res : Bool)
    (st : PState) (c : Candidate)
    (hk : c.kind = NodeKind.DECLARATION) (hok : c.nestedOk = true)
    (hnd : c.nestedDiags = []) (hctx : ctx ≠ st.nextId)
    (hdoc : (st.arena ctx).kind ≠ NodeKind.DOCUMENT) :
    (processCand ctx (res, st) c).2.errors =
      st.errors ++ [⟨c.line, misplacedNotInDocMsg⟩] := by
  rw [processCand_decl_notdoc ctx res st c hok hk hctx hdoc]
  dsimp only
  rw [hnd, List.append_nil]

/-- Witness for C10 at a concrete input. -/
theorem c10_one_diag_per_misplaced_decl_witness :
    (processCand 0 (true, ⟨wArenaElem, 1, [], []⟩) cDecl).2.errors =
      [] ++ [⟨cDecl.line, misplacedNotInDocMsg⟩] :=
  c10_one_diag_per_misplaced_decl 0 true ⟨wArenaElem, 1, [], []⟩ cDecl
    rfl rfl rfl (by decide) (by decide)

/-- Claim C4: two independent structural errors produce two distinct
diagnostic entries: after the first rejection the loop keeps calling
identify and also reports the second error. -/
theorem c4_two_errors_two_diags (ctx : Nat) (st : PState)
    (d1 d2 : Candidate)
    (h1k : d1.kind = NodeKind.DECLARATION) (h1ok : d1.nestedOk = true)
    (h1nd : d1.nestedDiags = [])
    (h2k : d2.kind = NodeKind.DECLARATION) (h2ok : d2.nestedOk = true)
    (h2nd : d2.nestedDiags = [])
    (hctx : ctx < st.nextId)
    (hdoc : (st.arena ctx).kind ≠ NodeKind.DOCUMENT) :
    (parseContinue ctx st [d1, d2]).2.errors =
      st.errors ++ [⟨d1.line, misplacedNotInDocMsg⟩,
        ⟨d2.line, misplacedNotInDocMsg⟩] ∧
    (parseContinue ctx st [d1, d2]).1 = false := by
  have hA1 : (deleteNode (st.nextId + 1)
      (upd st.arena st.nextId (newNode d1 st.nextId)) st.nextId) ctx =
      st.arena ctx := by
    have hdel := deleteNode_fresh (st.nextId + 1) (by omega)
      (upd st.arena st.nextId (newNode d1 st.nextId)) st.nextId
      (by rw [upd_same]; rfl) (by rw [upd_same]; exact Or.inl rfl)
      (by rw [upd_same]; rfl) (by rw [upd_same]; rfl)
    rw [hdel.2.2 ctx (by omega), upd_ne _ _ _ _ (by omega)]
  unfold parseContinue
  simp only [List.foldl_cons, List.foldl_nil]
  rw [processCand_decl_notdoc ctx true st d1 h1ok h1k (by omega) hdoc]
  rw [processCand_decl_notdoc ctx false
    { arena := deleteNode (st.nextId + 1)
        (upd st.arena st.nextId (newNode d1 st.nextId)) st.nextId,
      nextId := st.nextId + 1,
      errors := st.errors ++ d1.nestedDiags ++
        [⟨d1.line, misplacedNotInDocMsg⟩],
      destroyed := st.destroyed ++ [st.nextId] }
    d2 h2ok h2k (by dsimp only; omega)
    (by dsimp only; rw [hA1]; exact hdoc)]
  dsimp only
  rw [h1nd, h2nd]
  simp

/-- A second declaration candidate (line 5). -/
def cDecl2 : Candidate :=
  { kind := NodeKind.DECLARATION, closing := ClosingType.OPEN,
    value := "xml", line := 5, nestedOk := true, nestedDiags := [] }

/-- Witness for C4 at a concrete input. -/
theorem c4_two_errors_two_diags_witness :
    (parseContinue 0 ⟨wArenaElem, 1, [], []⟩ [cDecl, cDecl2]).2.errors =
      [] ++ [⟨cDecl.line, misplacedNotInDocMsg⟩,
        ⟨cDecl2.line, misplacedNotInDocMsg⟩] ∧
    (parseContinue 0 ⟨wArenaElem, 1, [], []⟩ [cDecl, cDecl2]).1 = false :=
  c4_two_errors_two_diags 0 ⟨wArenaElem, 1, [], []⟩ cDecl cDecl2
    rfl rfl rfl rfl rfl rfl (by decide) (by decide)

/-- Claim C2: a declaration candidate with a successful nested parse
is attached if and only if the context is a Document all of whose
children are declarations; otherwise a line-tagged error is reported,
the candidate is destroyed (detached, never attached) and the overall
result becomes false. -/
theorem c2_declaration_placement (ctx : Nat) (res : Bool) (st : PState)
    (c : Candidate) (L : List Nat)
    (hk : c.kind = NodeKind.DECLARATION) (hok : c.nestedOk = true)
    (hrep : childrenRep st.arena ctx L) (hnd : (ctx :: L).Nodup)
    (hlt : ∀ j ∈ ctx :: L, j < st.nextId) :
    (((st.arena ctx).kind = NodeKind.DOCUMENT ∧
        ∀ i ∈ L, (st.arena i).kind = NodeKind.DECLARATION) →
      ((processCand ctx (res, st) c).2.arena st.nextId).parent = some ctx ∧
      childrenRep (processCand ctx (res, st) c).2.arena ctx
        (L ++ [st.nextId]) ∧
      (processCand ctx (res, st) c).2.destroyed = st.destroyed ∧
      (processCand ctx (res, st) c).1 = res) ∧
    (¬ ((st.arena ctx).kind = NodeKind.DOCUMENT ∧
        ∀ i ∈ L, (st.arena i).kind = NodeKind.DECLARATION) →
      ((processCand ctx (res, st) c).2.arena st.nextId).parent = none ∧
      (processCand ctx (res, st) c).2.destroyed =
        st.destroyed ++ [st.nextId] ∧
      (processCand ctx (res, st) c).1 = false ∧
      ∃ m, (processCand ctx (res, st) c).2.errors =
        st.errors ++ c.nestedDiags ++ [⟨c.line, m⟩]) := by
  have hctx : ctx ≠ st.nextId := by
    have := hlt ctx (List.mem_cons_self _ _)
    omega
  have hidnot : st.nextId ∉ ctx :: L := fun h => by
    have := hlt _ h
    omega
  have ha0eq : ∀ j ∈ ctx :: L,
      (upd st.arena st.nextId (newNode c st.nextId)) j = st.arena j :=
    fun j hj => upd_ne _ _ _ _ (by have := hlt j hj; omega)
  have hrep0 : childrenRep (upd st.arena st.nextId (newNode c st.nextId))
      ctx L := childrenRep_congr _ _ _ _ ha0eq hrep
  have hfresh0 : freshNode (upd st.arena st.nextId (newNode c st.nextId))
      st.nextId :=
    ⟨Or.inl (by rw [upd_same]; rfl), by rw [upd_same]; rfl,
      by rw [upd_same]; rfl, by rw [upd_same]; rfl⟩
  have hdelfacts := deleteNode_fresh (st.nextId + 1) (by omega)
    (upd st.arena st.nextId (newNode c st.nextId)) st.nextId
    (by rw [upd_same]; rfl) (Or.inl (by rw [upd_same]; rfl))
    (by rw [upd_same]; rfl) (by rw [upd_same]; rfl)
  by_cases hdoc : (st.arena ctx).kind = NodeKind.DOCUMENT
  · have hdd := processCand_decl_doc ctx res st c hok hk hctx hdoc
    by_cases hall : ∀ i ∈ L, (st.arena i).kind = NodeKind.DECLARATION
    · have hscan : declChildScan
          (upd st.arena st.nextId (newNode c st.nextId)) c.line
          (st.nextId + 1) ((st.arena ctx).firstChild)
          (st.errors ++ c.nestedDiags) =
          (true, st.errors ++ c.nestedDiags) := by
        rcases L with _ | ⟨x, xs⟩
        · rw [(childrenRep_nil _ _).1 hrep]
          exact declChildScan_none _ _ _ _
        · rw [((childrenRep_cons _ _ _ _).1 hrep).1, declChildScan_eq]
          have hlen : (x :: xs).length ≤ st.nextId :=
            nodup_length_le _ _ (List.nodup_cons.1 hnd).2
              (fun j hj => hlt j (List.mem_cons_of_mem _ hj))
          have hsib : sibListAux
              (upd st.arena st.nextId (newNode c st.nextId))
              (st.nextId + 1) x = x :: xs :=
            sibListAux_spec _ ctx x xs hrep0 hnd xs [] x _ rfl
              (by simp only [List.length_cons] at hlen; omega)
          rw [hsib, if_pos ?_]
          rw [List.all_eq_true]
          intro i hi
          rw [decide_eq_true_eq,
            ha0eq i (List.mem_cons_of_mem _ hi)]
          exact hall i hi
      have hatt := reparent_attach
        (upd st.arena st.nextId (newNode c st.nextId)) ctx st.nextId L
        hrep0 hfresh0 hnd hidnot
      constructor
      · intro _
        rw [hdd, hscan, if_pos rfl]
        dsimp only
        refine ⟨?_, hatt.1, rfl, rfl⟩
        exact childrenRep_parent hatt.1 (by simp)
      · intro hncond
        exact absurd ⟨hdoc, hall⟩ hncond
    · have hscan : declChildScan
          (upd st.arena st.nextId (newNode c st.nextId)) c.line
          (st.nextId + 1) ((st.arena ctx).firstChild)
          (st.errors ++ c.nestedDiags) =
          (false, st.errors ++ c.nestedDiags ++
            [⟨c.line, misplacedNotFirstMsg⟩]) := by
        rcases L with _ | ⟨x, xs⟩
        · exact absurd (fun i hi => absurd hi (List.not_mem_nil i)) hall
        · rw [((childrenRep_cons _ _ _ _).1 hrep).1, declChildScan_eq]
          have hlen : (x :: xs).length ≤ st.nextId :=
            nodup_length_le _ _ (List.nodup_cons.1 hnd).2
              (fun j hj => hlt j (List.mem_cons_of_mem _ hj))
          have hsib : sibListAux
              (upd st.arena st.nextId (newNode c st.nextId))
              (st.nextId + 1) x = x :: xs :=
            sibListAux_spec _ ctx x xs hrep0 hnd xs [] x _ rfl
              (by simp only [List.length_cons] at hlen; omega)
          rw [hsib, if_neg ?_]
          rw [List.all_eq_true]
          intro hforall
          refine hall (fun i hi => ?_)
          have := hforall i hi
          rw [decide_eq_true_eq,
            ha0eq i (List.mem_cons_of_mem _ hi)] at this
          exact this
      constructor
      · intro hcond
        exact absurd hcond.2 hall
      · intro _
        rw [hdd, hscan, if_neg (by simp)]
        dsimp only
        exact ⟨hdelfacts.1, rfl, rfl, misplacedNotFirstMsg, rfl⟩
  · constructor
    · intro hcond
      exact absurd hcond.1 hdoc
    · intro _
      rw [processCand_decl_notdoc ctx res st c hok hk hctx hdoc]
      dsimp only
      exact ⟨hdelfacts.1, rfl, rfl, misplacedNotInDocMsg, rfl⟩

/-- Witness for C2 at a concrete input: a declaration under the empty
document is attached. -/
theorem c2_declaration_placement_witness :
    (((wArena 0).kind = NodeKind.DOCUMENT ∧
        ∀ i ∈ ([] : List Nat), (wArena i).kind = NodeKind.DECLARATION) →
      ((processCand 0 (true, ⟨wArena, 1, [], []⟩) cDecl).2.arena 1).parent
        = some 0 ∧
      childrenRep (processCand 0 (true, ⟨wArena, 1, [], []⟩) cDecl).2.arena 0
        ([] ++ [1]) ∧
      (processCand 0 (true, ⟨wArena, 1, [], []⟩) cDecl).2.destroyed = [] ∧
      (processCand 0 (true, ⟨wArena, 1, [], []⟩) cDecl).1 = true) ∧
    (¬ ((wArena 0).kind = NodeKind.DOCUMENT ∧
        ∀ i ∈ ([] : List Nat), (wArena i).kind = NodeKind.DECLARATION) →
      ((processCand 0 (true, ⟨wArena, 1, [], []⟩) cDecl).2.arena 1).parent
        = none ∧
      (processCand 0 (true, ⟨wArena, 1, [], []⟩) cDecl).2.destroyed =
        [] ++ [1] ∧
      (processCand 0 (true, ⟨wArena, 1, [], []⟩) cDecl).1 = false ∧
      ∃ m, (processCand 0 (true, ⟨wArena, 1, [], []⟩) cDecl).2.errors =
        [] ++ cDecl.nestedDiags ++ [⟨cDecl.line, m⟩]) :=
  c2_declaration_placement 0 true ⟨wArena, 1, [], []⟩ cDecl []
    rfl rfl (by decide) (by decide) (by decide)

/-- Core of claim C9: when the loop over a token stream ends with
result true, nothing was destroyed and every candidate was attached,
in stream order, after the pre-existing children. -/
theorem parse_true_attach (ctx : Nat) :
    ∀ (cs : List Candidate) (st : PState) (L : List Nat),
      childrenRep st.arena ctx L → (ctx :: L).Nodup →
      (∀ j ∈ ctx :: L, j < st.nextId) →
      (cs.foldl (processCand ctx) (true, st)).1 = true →
      (cs.foldl (processCand ctx) (true, st)).2.destroyed = st.destroyed ∧
      childrenRep (cs.foldl (processCand ctx) (true, st)).2.arena ctx
        (L ++ List.range' st.nextId cs.length) ∧
      (cs.foldl (processCand ctx) (true, st)).2.nextId =
        st.nextId + cs.length
  | [], st, L, hrep, _, _, _ =>
    ⟨rfl, by simpa using hrep, by simp⟩
  | c :: cs', st, L, hrep, hnd, hlt, htrue => by
    rw [List.foldl_cons] at htrue ⊢
    rcases hpc : processCand ctx (true, st) c with ⟨r1, st1⟩
    rw [hpc] at htrue
    have hr1 : r1 = true := by
      rcases hb : r1 with _ | _
      · rw [hb] at htrue
        rw [parseLoop_false ctx cs' st1] at htrue
        cases htrue
      · rfl
    subst hr1
    have hshape := processCand_ok_shape ctx true st c (by rw [hpc])
    have hst1 : st1 =
        { arena := reparent (upd st.arena st.nextId (newNode c st.nextId))
            st.nextId (some ctx),
          nextId := st.nextId + 1,
          errors := st.errors ++ c.nestedDiags,
          destroyed := st.destroyed } := by
      have h2 := hshape.2
      rw [hpc] at h2
      exact (Prod.ext_iff.1 h2).2
    have hctx : ctx ≠ st.nextId := by
      have := hlt ctx (List.mem_cons_self _ _)
      omega
    have hidnot : st.nextId ∉ ctx :: L := fun h => by
      have := hlt _ h
      omega
    have ha0eq : ∀ j ∈ ctx :: L,
        (upd st.arena st.nextId (newNode c st.nextId)) j = st.arena j :=
      fun j hj => upd_ne _ _ _ _ (by have := hlt j hj; omega)
    have hrep0 : childrenRep (upd st.arena st.nextId (newNode c st.nextId))
        ctx L := childrenRep_congr _ _ _ _ ha0eq hrep
    have hfresh0 : freshNode (upd st.arena st.nextId (newNode c st.nextId))
        st.nextId :=
      ⟨Or.inl (by rw [upd_same]; rfl), by rw [upd_same]; rfl,
        by rw [upd_same]; rfl, by rw [upd_same]; rfl⟩
    have hatt := reparent_attach
      (upd st.arena st.nextId (newNode c st.nextId)) ctx st.nextId L
      hrep0 hfresh0 hnd hidnot
    have hrep1 : childrenRep st1.arena ctx (L ++ [st.nextId]) := by
      rw [hst1]
      exact hatt.1
    have hctxL : ctx ∉ L := (List.nodup_cons.1 hnd).1
    have hLnd : L.Nodup := (List.nodup_cons.1 hnd).2
    have hnd1 : (ctx :: (L ++ [st.nextId])).Nodup := by
      rw [List.nodup_cons]
      refine ⟨?_, ?_⟩
      · intro hmem
        rcases List.mem_append.1 hmem with h1 | h2
        · exact hctxL h1
        · rcases List.mem_singleton.1 h2 with rfl
          exact hctx rfl
      · rw [List.nodup_append]
        refine ⟨hLnd, List.nodup_singleton _, ?_⟩
        intro u hu hv
        rcases List.mem_singleton.1 hv with rfl
        exact hidnot (List.mem_cons_of_mem _ hu)
    have hlt1 : ∀ j ∈ ctx :: (L ++ [st.nextId]), j < st1.nextId := by
      intro j hj
      have hn1 : st1.nextId = st.nextId + 1 := by rw [hst1]
      rw [hn1]
      rcases List.mem_cons.1 hj with rfl | hj2
      · have := hlt j (List.mem_cons_self _ _)
        omega
      · rcases List.mem_append.1 hj2 with h1 | h2
        · have := hlt j (List.mem_cons_of_mem _ h1)
          omega
        · rcases List.mem_singleton.1 h2 with rfl
          omega
    have hIH := parse_true_attach ctx cs' st1 (L ++ [st.nextId])
      hrep1 hnd1 hlt1 htrue
    have hn1 : st1.nextId = st.nextId + 1 := by rw [hst1]
    have hd1 : st1.destroyed = st.destroyed := by rw [hst1]
    refine ⟨?_, ?_, ?_⟩
    · rw [hIH.1, hd1]
    · have h2 := hIH.2.1
      rw [hn1] at h2
      have hlist : L ++ List.range' st.nextId (c :: cs').length =
          (L ++ [st.nextId]) ++ List.range' (st.nextId + 1) cs'.length := by
        rw [List.length_cons, List.range'_succ]
        simp
      rw [hlist]
      exact h2
    · rw [hIH.2.2, hn1, List.length_cons]
      omega

/-- Claim C9: if `parseContinue` returns true then every candidate
the tokenizer yielded was attached to the context via `reparent`,
none was destroyed, and the context's children are exactly the old
children followed by the new nodes in the order the tokenizer
produced them. -/
theorem c9_success_attaches_in_order (ctx : Nat) (st : PState)
    (cs : List Candidate) (L : List Nat)
    (hrep : childrenRep st.arena ctx L) (hnd : (ctx :: L).Nodup)
    (hlt : ∀ j ∈ ctx :: L, j < st.nextId)
    (htrue : (parseContinue ctx st cs).1 = true) :
    (parseContinue ctx st cs).2.destroyed = st.destroyed ∧
    childrenRep (parseContinue ctx st cs).2.arena ctx
      (L ++ List.range' st.nextId cs.length) ∧
    (parseContinue ctx st cs).2.nextId = st.nextId + cs.length :=
  parse_true_attach ctx cs st L hrep hnd hlt htrue

/-- Witness for C9 at a concrete input: two text nodes parsed under
the empty document are attached as children 1, 2. -/
theorem c9_success_attaches_in_order_witness :
    (parseContinue 0 ⟨wArena, 1, [], []⟩ [cText, cText]).2.destroyed = [] ∧
    childrenRep (parseContinue 0 ⟨wArena, 1, [], []⟩ [cText, cText]).2.arena
      0 ([] ++ List.range' 1 2) ∧
    (parseContinue 0 ⟨wArena, 1, [], []⟩ [cText, cText]).2.nextId = 1 + 2 :=
  c9_success_attaches_in_order 0 ⟨wArena, 1, [], []⟩ [cText, cText] []
    (by decide) (by decide) (by decide) (by decide)

mutual

/-- The identifier skeleton of a subtree in the arena: a root and the
skeletons of its children, in ring order. -/
inductive IdTree where
  | mk : Nat → IdForest → IdTree

/-- A list of sibling subtrees, in ring order. -/
inductive IdForest where
  | nil : IdForest
  | cons : IdTree → IdForest → IdForest

end

def rootT : IdTree → Nat
  | .mk i _ => i

def roots : IdForest → List Nat
  | .nil => []
  | .cons t f => rootT t :: roots f

mutual

def flatT : IdTree → List Nat
  | .mk i f => i :: flatF f

def flatF : IdForest → List Nat
  | .nil => []
  | .cons t f => flatT t ++ flatF f

end

mutual

/-- Fuel sufficient for `deleteNode` on this subtree. -/
def needsT : IdTree → Nat
  | .mk _ f => needsF f + 2

/-- Fuel sufficient for `clearLoop` over this forest. -/
def needsF : IdForest → Nat
  | .nil => 1
  | .cons t f => max (needsT t) (needsF f) + 1

end

mutual

/-- The arena realizes this subtree: the root's children ring is
exactly the forest's roots and each child subtree is realized too. -/
def repT (a : Arena) : IdTree → Prop
  | .mk i f => childrenRep a i (roots f) ∧ repF a f

def repF (a : Arena) : IdForest → Prop
  | .nil => True
  | .cons t f => repT a t ∧ repF a f

end

mutual

def decRepT (a : Arena) : (t : IdTree) → Decidable (repT a t)
  | .mk i f =>
    haveI : Decidable (repF a f) := decRepF a f
    inferInstanceAs (Decidable (childrenRep a i (roots f) ∧ repF a f))

def decRepF (a : Arena) : (f : IdForest) → Decidable (repF a f)
  | .nil => isTrue trivial
  | .cons t f =>
    haveI : Decidable (repT a t) := decRepT a t
    haveI : Decidable (repF a f) := decRepF a f
    inferInstanceAs (Decidable (repT a t ∧ repF a f))

end

instance (a : Arena) (t : IdTree) : Decidable (repT a t) := decRepT a t

instance (a : Arena) (f : IdForest) : Decidable (repF a f) := decRepF a f

/-- The state of a destroyed node: detached, cleared, alone in its
ring; only kind and closing type survive. -/
def deadNode (orig : Node) (j : Nat) : Node :=
  { kind := orig.kind, value := "", parent := none, firstChild := none,
    inputLineNum := 0, closingType := orig.closingType,
    ringNextId := j, ringPrevId := j }

theorem deadNode_congr {m1 m2 : Node} (j : Nat)
    (hk : m1.kind = m2.kind) (hc : m1.closingType = m2.closingType) :
    deadNode m1 j = deadNode m2 j := by
  unfold deadNode
  rw [hk, hc]

theorem roots_sublist_flatF :
    ∀ f : IdForest, List.Sublist (roots f) (flatF f)
  | .nil => List.Sublist.refl []
  | .cons t f => by
    rcases t with ⟨i, ch⟩
    show List.Sublist (i :: roots f) ((i :: flatF ch) ++ flatF f)
    rw [List.cons_append]
    exact ((roots_sublist_flatF f).trans (List.sublist_append_right (flatF ch) (flatF f))).cons₂ i

/-- `childrenRep` only looks at the parent's `firstChild` and the
members' ring links and parent fields. -/
theorem childrenRep_fields_congr (a b : Arena) (p : Nat) (L : List Nat)
    (hp : (b p).firstChild = (a p).firstChild)
    (hm : ∀ j ∈ L, (b j).ringNextId = (a j).ringNextId ∧
      (b j).ringPrevId = (a j).ringPrevId ∧ (b j).parent = (a j).parent)
    (hrep : childrenRep a p L) : childrenRep b p L := by
  rcases L with _ | ⟨x, xs⟩
  · rw [childrenRep_nil] at hrep ⊢
    rw [hp]
    exact hrep
  · rw [childrenRep_cons] at hrep ⊢
    obtain ⟨hfc, hcn, hcp, hpar⟩ := hrep
    have hmm : ∀ u, u ∈ (x :: xs) ++ [x] → u ∈ x :: xs := by
      intro u hu
      rcases List.mem_append.1 hu with h1 | h1
      · exact h1
      · rcases List.mem_singleton.1 h1 with rfl
        exact List.mem_cons_self _ _
    refine ⟨by rw [hp]; exact hfc, ?_, ?_, ?_⟩
    · exact chain'_nextRel_congr a b _
        (fun u hu => (hm u (hmm u (List.dropLast_subset _ hu))).1) hcn
    · exact chain'_prevRel_congr a b _
        (fun v hv => (hm v (hmm v (List.mem_of_mem_tail hv))).2.1) hcp
    · intro i hi
      rw [(hm i hi).2.2]
      exact hpar i hi

mutual

theorem repT_congr_full (a b : Arena) :
    ∀ t : IdTree, (∀ j ∈ flatT t, b j = a j) → repT a t → repT b t
  | .mk i f, h, hrep => by
    refine ⟨?_, repF_congr_full a b f (fun j hj => h j ?_) hrep.2⟩
    · refine childrenRep_fields_congr a b i (roots f)
        (by rw [h i (by show i ∈ i :: flatF f; exact List.mem_cons_self _ _)])
        (fun j hj => ?_) hrep.1
      have hjf : j ∈ flatF f := (roots_sublist_flatF f).subset hj
      rw [h j (by show j ∈ i :: flatF f; exact List.mem_cons_of_mem _ hjf)]
      exact ⟨rfl, rfl, rfl⟩
    · show j ∈ i :: flatF f
      exact List.mem_cons_of_mem _ hj

theorem repF_congr_full (a b : Arena) :
    ∀ f : IdForest, (∀ j ∈ flatF f, b j = a j) → repF a f → repF b f
  | .nil, _, _ => trivial
  | .cons t f, h, hrep => by
    refine ⟨repT_congr_full a b t (fun j hj => h j ?_) hrep.1,
      repF_congr_full a b f (fun j hj => h j ?_) hrep.2⟩
    · show j ∈ flatT t ++ flatF f
      exact List.mem_append_left _ hj
    · show j ∈ flatT t ++ flatF f
      exact List.mem_append_right _ hj

end

/-- A subtree stays realized when its root keeps its non-ring fields
and every other node of the subtree is untouched. -/
theorem repT_sib_transfer (a b : Arena) (t : IdTree)
    (hnd : (flatT t).Nodup)
    (hroot : eqNonRing (b (rootT t)) (a (rootT t)))
    (hothers : ∀ j ∈ flatT t, j ≠ rootT t → b j = a j)
    (hrep : repT a t) : repT b t := by
  rcases t with ⟨i, f⟩
  have hiflat : ∀ j ∈ flatF f, j ≠ i := by
    intro j hj
    have : i ∉ flatF f := (List.nodup_cons.1 hnd).1
    exact fun h => this (h ▸ hj)
  refine ⟨?_, repF_congr_full a b f
    (fun j hj => hothers j (List.mem_cons_of_mem _ hj) (hiflat j hj))
    hrep.2⟩
  refine childrenRep_fields_congr a b i (roots f) hroot.2.2.2.1
    (fun j hj => ?_) hrep.1
  have hjf : j ∈ flatF f := (roots_sublist_flatF f).subset hj
  rw [hothers j (List.mem_cons_of_mem _ hjf) (hiflat j hjf)]
  exact ⟨rfl, rfl, rfl⟩

theorem repF_sib_transfer (a b : Arena) :
    ∀ f : IdForest, (flatF f).Nodup →
      (∀ r ∈ roots f, eqNonRing (b r) (a r)) →
      (∀ j ∈ flatF f, j ∉ roots f → b j = a j) →
      repF a f → repF b f
  | .nil, _, _, _, _ => trivial
  | .cons t f, hnd, hroots, hothers, hrep => by
    have hndt : (flatT t).Nodup := by
      have : flatF (.cons t f) = flatT t ++ flatF f := rfl
      rw [this] at hnd
      exact (List.nodup_append.1 hnd).1
    have hndf : (flatF f).Nodup := by
      have : flatF (.cons t f) = flatT t ++ flatF f := rfl
      rw [this] at hnd
      exact (List.nodup_append.1 hnd).2.1
    have hdisj : ∀ u ∈ flatT t, u ∉ flatF f := by
      have : flatF (.cons t f) = flatT t ++ flatF f := rfl
      rw [this] at hnd
      exact fun u hu => (List.nodup_append.1 hnd).2.2 hu
    have hroot_mem : rootT t ∈ flatT t := by
      rcases t with ⟨i, ch⟩
      exact List.mem_cons_self _ _
    refine ⟨repT_sib_transfer a b t hndt
      (hroots (rootT t) (List.mem_cons_self _ _)) (fun j hj hji => ?_)
      hrep.1, repF_sib_transfer a b f hndf (fun r hr => ?_)
      (fun j hj hjr => ?_) hrep.2⟩
    · refine hothers j (List.mem_append_left _ hj) ?_
      intro hmem
      rcases List.mem_cons.1 hmem with h1 | h1
      · exact hji h1
      · exact hdisj j hj ((roots_sublist_flatF f).subset h1)
    · exact hroots r (List.mem_cons_of_mem _ hr)
    · refine hothers j (List.mem_append_right _ hj) ?_
      intro hmem
      rcases List.mem_cons.1 hmem with h1 | h1
      · exact hdisj j (h1 ▸ hroot_mem) hj
      · exact hjr h1

theorem node_eq_fields (m1 m2 : Node) (h1 : m1.kind = m2.kind)
    (h2 : m1.value = m2.value) (h3 : m1.parent = m2.parent)
    (h4 : m1.firstChild = m2.firstChild)
    (h5 : m1.inputLineNum = m2.inputLineNum)
    (h6 : m1.closingType = m2.closingType)
    (h7 : m1.ringNextId = m2.ringNextId)
    (h8 : m1.ringPrevId = m2.ringPrevId) : m1 = m2 := by
  cases m1
  cases m2
  dsimp only at h1 h2 h3 h4 h5 h6 h7 h8
  subst h1
  subst h2
  subst h3
  subst h4
  subst h5
  subst h6
  subst h7
  subst h8
  rfl

/-- Detaching the designated first child `c` (as the destructor's
`reparent(0)` does) advances `firstChild` and leaves the remaining
ring well formed; `c` ends up detached and alone. -/
theorem reparent_detach_head (a : Arena) (p c : Nat) (rest : List Nat)
    (hrep : childrenRep a p (c :: rest)) (hnd : (p :: c :: rest).Nodup) :
    childrenRep (reparent a c none) p rest ∧
    (reparent a c none) c =
      { a c with parent := none, ringNextId := c, ringPrevId := c } ∧
    (reparent a c none) p = { a p with firstChild := rest.head? } ∧
    (∀ j, j ∉ p :: c :: rest → (reparent a c none) j = a j) ∧
    (∀ j ∈ rest, eqNonRing ((reparent a c none) j) (a j)) := by
  rw [childrenRep_cons] at hrep
  obtain ⟨hfc, hcn, hcp, hpar⟩ := hrep
  have hcpar : (a c).parent = some p := hpar c (List.mem_cons_self _ _)
  have hpc : p ≠ c := fun h =>
    (List.nodup_cons.1 hnd).1 (h ▸ List.mem_cons_self _ _)
  have hcp2 : c ≠ p := hpc.symm
  have hcrest : c ∉ rest := (List.nodup_cons.1 (List.nodup_cons.1 hnd).2).1
  have hprest : p ∉ rest := fun h =>
    (List.nodup_cons.1 hnd).1 (List.mem_cons_of_mem _ h)
  have hrest_nd : rest.Nodup := (List.nodup_cons.1 (List.nodup_cons.1 hnd).2).2
  have hguard : ¬ ((none : Option Nat) = (a c).parent) := by
    rw [hcpar]
    simp
  have hform : ∀ v w : Nat, (a c).ringNextId = v → (a c).ringPrevId = w →
      ({ a c with parent := none, ringNextId := v, ringPrevId := w } :
        Node) = { a c with parent := none } := by
    intro v w hv hw
    subst hv
    subst hw
    rfl
  rcases rest with _ | ⟨r, rs⟩
  · have hnextc : (a c).ringNextId = c := (List.chain'_cons.1 hcn).1
    have hprevc : (a c).ringPrevId = c := (List.chain'_cons.1 hcp).1
    have hb : reparent a c none =
        upd (upd a p { a p with firstChild := none }) c
          { (upd a p { a p with firstChild := none }) c with
              parent := none } := by
      rw [reparent, if_neg hguard, hcpar]
      dsimp only
      rw [if_pos hfc]
      have hra : ringAlone a c = true := by
        unfold ringAlone
        rw [hnextc]
        simp
      rw [hra, if_pos rfl]
      rw [ringRemove_alone _ c
        (by rw [upd_ne _ _ _ _ hcp2]; exact hnextc)
        (by rw [upd_ne _ _ _ _ hcp2]; exact hprevc)]
    rw [hb]
    refine ⟨?_, ?_, ?_, ?_, ?_⟩
    · rw [childrenRep_nil, upd_ne _ _ _ _ hpc, upd_same]
    · rw [upd_same, upd_ne _ _ _ _ hcp2, hform c c hnextc hprevc]
    · rw [upd_ne _ _ _ _ hpc, upd_same]
      rfl
    · intro j hj
      have hjc : j ≠ c := fun h => hj (h ▸ List.mem_cons_of_mem _
        (List.mem_cons_self _ _))
      have hjp : j ≠ p := fun h => hj (h ▸ List.mem_cons_self _ _)
      rw [upd_ne _ _ _ _ hjc, upd_ne _ _ _ _ hjp]
    · intro j hj
      cases hj
  · have hnextc : (a c).ringNextId = r := (List.chain'_cons.1 hcn).1
    have hrc : r ≠ c := by
      intro h
      exact hcrest (h ▸ List.mem_cons_self _ _)
    have hlast_mem : (r :: rs).getLast (List.cons_ne_nil r rs) ∈ r :: rs :=
      List.getLast_mem _
    have hprevc : (a c).ringPrevId = (r :: rs).getLast
        (List.cons_ne_nil r rs) := by
      have hw := chain'_wrap (prevRel a) c (r :: rs) hcp
      have he : (c :: r :: rs).getLast (List.cons_ne_nil c (r :: rs)) =
          (r :: rs).getLast (List.cons_ne_nil r rs) :=
        List.getLast_cons (List.cons_ne_nil r rs)
      rw [he] at hw
      exact hw
    have hlc : (r :: rs).getLast (List.cons_ne_nil r rs) ≠ c := by
      intro h
      exact hcrest (h ▸ hlast_mem)
    have hlp : (r :: rs).getLast (List.cons_ne_nil r rs) ≠ p := by
      intro h
      exact hprest (h ▸ hlast_mem)
    have hb : reparent a c none =
        upd (ringRemove (upd a p { a p with firstChild := some r }) c) c
          { (ringRemove (upd a p { a p with firstChild := some r }) c) c
              with parent := none } := by
      rw [reparent, if_neg hguard, hcpar]
      dsimp only
      rw [if_pos hfc]
      have hra : ringAlone a c = false := by
        unfold ringAlone
        rw [hnextc]
        simp [hrc]
      rw [hra, if_neg (by simp : ¬(false = true))]
      unfold ringNextOf
      rw [hnextc]
    have hADc : (upd a p { a p with firstChild := some r }) c = a c :=
      upd_ne _ _ _ _ hcp2
    obtain ⟨S1, S2, S3, S4, S5, S6, S7⟩ := ringRemove_spec
      (upd a p { a p with firstChild := some r }) c
      (by rw [hADc, hnextc]; exact hrc)
      (by rw [hADc, hprevc]; exact hlc)
    rw [hADc, hnextc, hprevc] at S3
    rw [hADc, hnextc, hprevc] at S4
    rw [hADc, hnextc, hprevc] at S5
    rw [hADc, hprevc] at S6
    rw [hADc, hnextc] at S7
    rw [hb]
    have hB1eq : ∀ j, j ≠ c →
        (upd (ringRemove (upd a p { a p with firstChild := some r }) c) c
          { (ringRemove (upd a p { a p with firstChild := some r }) c) c
              with parent := none }) j =
        (ringRemove (upd a p { a p with firstChild := some r }) c) j :=
      fun j hj => upd_ne _ _ _ _ hj
    have hADother : ∀ j, j ≠ p →
        (upd a p { a p with firstChild := some r }) j = a j :=
      fun j hj => upd_ne _ _ _ _ hj
    refine ⟨?_, ?_, ?_, ?_, ?_⟩
    · rw [childrenRep_cons]
      refine ⟨?_, ?_, ?_, ?_⟩
      · rw [hB1eq p hpc, S5 p hpc hlp.symm (fun h => hprest
          (h ▸ List.mem_cons_self _ _)), upd_same]
      · have hbase : List.Chain' (nextRel a) (r :: rs) :=
          (List.Chain'.tail hcn).left_of_append
        have ht1 : List.Chain' (nextRel
            (upd a p { a p with firstChild := some r })) (r :: rs) :=
          chain'_nextRel_congr a _ _ (fun u hu => by
            rw [hADother u (fun h => hprest
              (h ▸ List.dropLast_subset _ hu))]) hbase
        have ht2 : List.Chain' (nextRel
            (ringRemove (upd a p { a p with firstChild := some r }) c))
            (r :: rs) :=
          chain'_nextRel_congr _ _ _ (fun u hu => by
            refine S6 u (fun h => hcrest (h ▸ List.dropLast_subset _ hu))
              (fun h => getLast_not_dropLast hrest_nd
                (List.cons_ne_nil r rs) (h ▸ hu))) ht1
        have ht3 : List.Chain' (nextRel
            (upd (ringRemove (upd a p { a p with firstChild := some r }) c)
              c { (ringRemove (upd a p
                { a p with firstChild := some r }) c) c with
                  parent := none })) (r :: rs) :=
          chain'_nextRel_congr _ _ _ (fun u hu => by
            rw [hB1eq u (fun h => hcrest (h ▸ List.dropLast_subset _ hu))])
            ht2
        refine List.Chain'.append ht3 (List.chain'_singleton r) ?_
        intro u hu v hv
        rw [List.getLast?_eq_getLast _ (List.cons_ne_nil r rs),
          Option.mem_some_iff] at hu
        have hv' : v = r := (Option.mem_some_iff.1 hv).symm
        rw [← hu, hv']
        show ((upd (ringRemove _ c) c _)
          ((r :: rs).getLast (List.cons_ne_nil r rs))).ringNextId = r
        rw [hB1eq _ hlc]
        exact S3
      · have hbase : List.Chain' (prevRel a) (r :: rs) :=
          (List.Chain'.tail hcp).left_of_append
        have ht1 : List.Chain' (prevRel
            (upd a p { a p with firstChild := some r })) (r :: rs) :=
          chain'_prevRel_congr a _ _ (fun v hv => by
            rw [hADother v (fun h => hprest
              (h ▸ List.mem_cons_of_mem r hv))]) hbase
        have ht2 : List.Chain' (prevRel
            (ringRemove (upd a p { a p with firstChild := some r }) c))
            (r :: rs) :=
          chain'_prevRel_congr _ _ _ (fun v hv => by
            refine S7 v (fun h => hcrest (h ▸ List.mem_cons_of_mem r hv))
              (fun h => (List.nodup_cons.1 hrest_nd).1 (h ▸ hv))) ht1
        have ht3 : List.Chain' (prevRel
            (upd (ringRemove (upd a p { a p with firstChild := some r }) c)
              c { (ringRemove (upd a p
                { a p with firstChild := some r }) c) c with
                  parent := none })) (r :: rs) :=
          chain'_prevRel_congr _ _ _ (fun v hv => by
            rw [hB1eq v (fun h => hcrest (h ▸ List.mem_cons_of_mem r hv))])
            ht2
        refine List.Chain'.append ht3 (List.chain'_singleton r) ?_
        intro u hu v hv
        rw [List.getLast?_eq_getLast _ (List.cons_ne_nil r rs),
          Option.mem_some_iff] at hu
        have hv' : v = r := (Option.mem_some_iff.1 hv).symm
        rw [← hu, hv']
        show prevRel _ ((r :: rs).getLast (List.cons_ne_nil r rs)) r
        show ((upd (ringRemove _ c) c _) r).ringPrevId =
          (r :: rs).getLast (List.cons_ne_nil r rs)
        rw [hB1eq r hrc]
        exact S4
      · intro i hi
        have hic : i ≠ c := fun h => hcrest (h ▸ hi)
        have hip : i ≠ p := fun h => hprest (h ▸ hi)
        rw [hB1eq i hic, (ringRemove_eqNonRing _ c i).2.2.1,
          hADother i hip]
        exact hpar i (List.mem_cons_of_mem _ hi)
    · rw [upd_same]
      refine node_eq_fields _ _ ?_ ?_ ?_ ?_ ?_ ?_ ?_ ?_ <;>
        dsimp only
      · rw [(ringRemove_eqNonRing _ c c).1, hADc]
      · rw [(ringRemove_eqNonRing _ c c).2.1, hADc]
      · rw [(ringRemove_eqNonRing _ c c).2.2.2.1, hADc]
      · rw [(ringRemove_eqNonRing _ c c).2.2.2.2.1, hADc]
      · rw [(ringRemove_eqNonRing _ c c).2.2.2.2.2, hADc]
      · exact S1
      · exact S2
    · rw [hB1eq p hpc, S5 p hpc hlp.symm (fun h => hprest
        (h ▸ List.mem_cons_self _ _)), upd_same]
      rfl
    · intro j hj
      have hjp : j ≠ p := fun h => hj (h ▸ List.mem_cons_self _ _)
      have hjc : j ≠ c := fun h => hj (h ▸ List.mem_cons_of_mem _
        (List.mem_cons_self _ _))
      have hjrest : j ∉ r :: rs := fun h => hj (List.mem_cons_of_mem _
        (List.mem_cons_of_mem _ h))
      rw [hB1eq j hjc, S5 j hjc (fun h => hjrest (h ▸ hlast_mem))
        (fun h => hjrest (h ▸ List.mem_cons_self r rs)),
        hADother j hjp]
    · intro j hj
      have hjc : j ≠ c := fun h => hcrest (h ▸ hj)
      have hjp : j ≠ p := fun h => hprest (h ▸ hj)
      rw [hB1eq j hjc]
      refine eqNonRing_trans (ringRemove_eqNonRing _ c j) ?_
      rw [hADother j hjp]
      exact eqNonRing_refl _

theorem needsF_pos : ∀ f : IdForest, 1 ≤ needsF f
  | .nil => le_refl 1
  | .cons t f => by
    simp only [needsF]
    omega

mutual

/-- The C++ `delete` of the subtree rooted at the first child: after
`deleteNode` the parent's ring holds exactly the remaining siblings,
every node of the deleted subtree is in the destroyed state, the
parent's `firstChild` advanced, and nothing else changed (the
remaining siblings keep their non-ring fields). -/
theorem deleteNode_head_spec :
    ∀ (fuel : Nat) (a : Arena) (p : Nat) (t : IdTree) (rest : List Nat),
      needsT t ≤ fuel →
      repT a t →
      childrenRep a p (rootT t :: rest) →
      (p :: (flatT t ++ rest)).Nodup →
      childrenRep (deleteNode fuel a (rootT t)) p rest ∧
      (∀ j ∈ flatT t, (deleteNode fuel a (rootT t)) j = deadNode (a j) j) ∧
      (deleteNode fuel a (rootT t)) p =
        { a p with firstChild := rest.head? } ∧
      (∀ j, j ∉ p :: (flatT t ++ rest) →
        (deleteNode fuel a (rootT t)) j = a j) ∧
      (∀ j ∈ rest, eqNonRing ((deleteNode fuel a (rootT t)) j) (a j))
  | 0, _, _, t, _, hfuel, _, _, _ => by
    rcases t with ⟨c, f⟩
    exact absurd hfuel (by simp only [needsT]; omega)
  | fuel+1, a, p, t, rest, hfuel, hrep, hsib, hnd => by
    rcases t with ⟨c, f⟩
    simp only [rootT, flatT] at hsib hnd ⊢
    simp only [needsT] at hfuel
    have hfuel' : needsF f + 1 ≤ fuel := by omega
    obtain ⟨hrepc, hrepf⟩ := hrep
    simp only [List.cons_append, List.nodup_cons, List.mem_cons,
      List.mem_append, not_or] at hnd
    obtain ⟨⟨hpc, hpf, hpr⟩, ⟨hcf2, hcrest⟩, hndfr⟩ := hnd
    have hff : (flatF f).Nodup := (List.nodup_append.1 hndfr).1
    have hrr : rest.Nodup := (List.nodup_append.1 hndfr).2.1
    have hdisj : ∀ u ∈ flatF f, u ∉ rest := fun u hu =>
      (List.nodup_append.1 hndfr).2.2 hu
    obtain ⟨X1, X2, X3⟩ := clearNode_spec fuel a c f hfuel' hrepc hrepf
      (List.nodup_cons.2 ⟨hcf2, hff⟩)
    have hXp : clearNode fuel a c p = a p := X3 p (by
      simp only [List.mem_cons, not_or]
      exact ⟨hpc, hpf⟩)
    have hXrest : ∀ j ∈ rest, clearNode fuel a c j = a j := fun j hj =>
      X3 j (by
        simp only [List.mem_cons, not_or]
        exact ⟨fun h => hcrest (h ▸ hj), fun h => hdisj j h hj⟩)
    have hrepX : childrenRep (clearNode fuel a c) p (c :: rest) := by
      refine childrenRep_fields_congr a _ p (c :: rest) (by rw [hXp]) ?_ hsib
      intro j hj
      rcases List.mem_cons.1 hj with rfl | hj2
      · rw [X1]
        exact ⟨rfl, rfl, rfl⟩
      · rw [hXrest j hj2]
        exact ⟨rfl, rfl, rfl⟩
    have hndpcr : (p :: c :: rest).Nodup := by
      simp only [List.nodup_cons, List.mem_cons, not_or]
      exact ⟨⟨hpc, hpr⟩, hcrest, hrr⟩
    obtain ⟨R1, R2, R3, R4, R5⟩ := reparent_detach_head
      (clearNode fuel a c) p c rest hrepX hndpcr
    have hDdef : deleteNode (fuel + 1) a c =
        reparent (clearNode fuel a c) c none := rfl
    rw [hDdef]
    refine ⟨R1, ?_, ?_, ?_, ?_⟩
    · intro j hj
      rcases List.mem_cons.1 hj with rfl | hj2
      · rw [R2, X1]
        unfold deadNode
        rfl
      · rw [R4 j (by
          simp only [List.mem_cons, not_or]
          exact ⟨fun h => hpf (h ▸ hj2), fun h => hcf2 (h ▸ hj2),
            fun h => hdisj j hj2 h⟩), X2 j hj2]
    · rw [R3, hXp]
    · intro j hj
      simp only [List.mem_cons, List.mem_append, not_or] at hj
      obtain ⟨hjp, ⟨hjc, hjf⟩, hjr⟩ := hj
      rw [R4 j (by
          simp only [List.mem_cons, not_or]
          exact ⟨hjp, hjc, hjr⟩),
        X3 j (by
          simp only [List.mem_cons, not_or]
          exact ⟨hjc, hjf⟩)]
    · intro j hj
      have h5 := R5 j hj
      rwa [hXrest j hj] at h5

/-- The `while (_firstChild != 0) delete _firstChild;` loop of
`clear()`: it destroys the whole child forest (each subtree torn down
post-order by `deleteNode`), nulls the node's `firstChild`, and
touches nothing outside the forest. -/
theorem clearLoop_spec :
    ∀ (fuel : Nat) (a : Arena) (i : Nat) (cs : IdForest),
      needsF cs ≤ fuel →
      childrenRep a i (roots cs) →
      repF a cs →
      (i :: flatF cs).Nodup →
      (clearLoop fuel a i) i = { a i with firstChild := none } ∧
      (∀ j ∈ flatF cs, (clearLoop fuel a i) j = deadNode (a j) j) ∧
      (∀ j, j ∉ i :: flatF cs → (clearLoop fuel a i) j = a j)
  | 0, _, _, cs, hfuel, _, _, _ =>
    absurd hfuel (by have h1 := needsF_pos cs; omega)
  | fuel+1, a, i, cs, hfuel, hrep, hrepf, hnd => by
    rcases cs with _ | ⟨t, f⟩
    · have hrep0 : childrenRep a i [] := hrep
      have hfc : (a i).firstChild = none := (childrenRep_nil a i).1 hrep0
      have hstep : clearLoop (fuel+1) a i = a :=
        clearLoop_no_children (fuel+1) a i hfc
      rw [hstep]
      refine ⟨node_eq_fields _ _ rfl rfl rfl hfc rfl rfl rfl rfl, ?_, ?_⟩
      · intro j hj
        exact absurd hj (List.not_mem_nil j)
      · intro j _
        rfl
    · simp only [roots, flatF] at hrep hnd ⊢
      simp only [needsF] at hfuel
      have hfuelT : needsT t ≤ fuel := by omega
      have hfuelF : needsF f ≤ fuel := by omega
      obtain ⟨hrt, hrf⟩ := hrepf
      simp only [List.nodup_cons, List.mem_append, not_or] at hnd
      obtain ⟨⟨hift, hiff⟩, hndtf⟩ := hnd
      have hndt : (flatT t).Nodup := (List.nodup_append.1 hndtf).1
      have hndf : (flatF f).Nodup := (List.nodup_append.1 hndtf).2.1
      have hdisj : ∀ u ∈ flatT t, u ∉ flatF f := fun u hu =>
        (List.nodup_append.1 hndtf).2.2 hu
      have hndD : (i :: (flatT t ++ roots f)).Nodup := by
        refine List.Nodup.sublist
          (((roots_sublist_flatF f).append_left (flatT t)).cons₂ i) ?_
        simp only [List.nodup_cons, List.mem_append, not_or]
        exact ⟨⟨hift, hiff⟩, hndtf⟩
      obtain ⟨D1, D2, D3, D4, D5⟩ := deleteNode_head_spec fuel a i t
        (roots f) hfuelT hrt hrep hndD
      have hrepfA1 : repF (deleteNode fuel a (rootT t)) f :=
        repF_sib_transfer a _ f hndf D5
          (fun j hj hjr => D4 j (by
            simp only [List.mem_cons, List.mem_append, not_or]
            exact ⟨fun h => hiff (h ▸ hj), fun h => hdisj j h hj, hjr⟩)) hrf
      have hndif : (i :: flatF f).Nodup := List.nodup_cons.2 ⟨hiff, hndf⟩
      obtain ⟨L1, L2, L3⟩ := clearLoop_spec fuel
        (deleteNode fuel a (rootT t)) i f hfuelF D1 hrepfA1 hndif
      have hfc : (a i).firstChild = some (rootT t) := by
        have h1 := hrep
        rw [childrenRep_cons] at h1
        exact h1.1
      have hstep : clearLoop (fuel+1) a i =
          clearLoop fuel (deleteNode fuel a (rootT t)) i := by
        simp only [clearLoop, hfc]
      rw [hstep]
      refine ⟨?_, ?_, ?_⟩
      · rw [L1, D3]
      · intro j hj
        rcases List.mem_append.1 hj with hjt | hjf
        · rw [L3 j (by
            simp only [List.mem_cons, not_or]
            exact ⟨fun h => hift (h ▸ hjt), fun h => hdisj j hjt h⟩),
            D2 j hjt]
        · rw [L2 j hjf]
          by_cases hjr : j ∈ roots f
          · exact deadNode_congr j (D5 j hjr).1 (D5 j hjr).2.2.2.2.2
          · rw [D4 j (by
              simp only [List.mem_cons, List.mem_append, not_or]
              exact ⟨fun h => hiff (h ▸ hjf), fun h => hdisj j h hjf, hjr⟩)]
      · intro j hj
        simp only [List.mem_cons, List.mem_append, not_or] at hj
        obtain ⟨hji, hjt, hjf⟩ := hj
        rw [L3 j (by
            simp only [List.mem_cons, not_or]
            exact ⟨hji, hjf⟩),
          D4 j (by
            simp only [List.mem_cons, List.mem_append, not_or]
            exact ⟨hji, hjt,
              fun h => hjf ((roots_sublist_flatF f).subset h)⟩)]

/-- `ts::xml::Node::clear`: destroys the whole child forest, then
resets `_value` and `_inputLineNum`; everything outside the node and
its forest is untouched. -/
theorem clearNode_spec :
    ∀ (fuel : Nat) (a : Arena) (i : Nat) (cs : IdForest),
      needsF cs + 1 ≤ fuel →
      childrenRep a i (roots cs) →
      repF a cs →
      (i :: flatF cs).Nodup →
      (clearNode fuel a i) i =
        { a i with firstChild := none, value := "", inputLineNum := 0 } ∧
      (∀ j ∈ flatF cs, (clearNode fuel a i) j = deadNode (a j) j) ∧
      (∀ j, j ∉ i :: flatF cs → (clearNode fuel a i) j = a j)
  | 0, _, _, cs, hfuel, _, _, _ =>
    absurd hfuel (by have h1 := needsF_pos cs; omega)
  | fuel+1, a, i, cs, hfuel, hrep, hrepf, hnd => by
    have hfuel' : needsF cs ≤ fuel := by omega
    obtain ⟨L1, L2, L3⟩ := clearLoop_spec fuel a i cs hfuel' hrep hrepf hnd
    have hstep : clearNode (fuel+1) a i =
        upd (clearLoop fuel a i) i
          { (clearLoop fuel a i) i with value := "", inputLineNum := 0 } :=
      rfl
    rw [hstep]
    refine ⟨?_, ?_, ?_⟩
    · rw [upd_same, L1]
    · intro j hj
      have hji : j ≠ i := fun h => (List.nodup_cons.1 hnd).1 (h ▸ hj)
      rw [upd_ne _ _ _ _ hji, L2 j hj]
    · intro j hj
      have hji : j ≠ i := fun h => hj (h ▸ List.mem_cons_self _ _)
      rw [upd_ne _ _ _ _ hji, L3 j hj]

end

/-- `clear()` on a node that is already cleared (no children, empty
value, line 0) changes nothing. -/
theorem clearNode_cleared (fuel : Nat) (a : Arena) (i : Nat)
    (hfc : (a i).firstChild = none) (hv : (a i).value = "")
    (hl : (a i).inputLineNum = 0) : clearNode fuel a i = a := by
  rcases fuel with _ | f
  · rfl
  · show upd (clearLoop f a i) i
      { (clearLoop f a i) i with value := "", inputLineNum := 0 } = a
    rw [clearLoop_no_children f a i hfc]
    have h1 : ({ a i with value := "", inputLineNum := 0 } : Node) = a i :=
      node_eq_fields _ _ rfl hv.symm rfl rfl hl.symm rfl rfl rfl
    rw [h1]
    exact upd_self a i

/-- Concrete arena for the teardown witness: document node 0 has ring
children 1 and 2; element 1 has the single text child 3. -/
def wClearArena : Arena := fun j =>
  if j = 0 then
    { kind := NodeKind.DOCUMENT, value := "doc", parent := none,
      firstChild := some 1, inputLineNum := 7,
      closingType := ClosingType.OPEN, ringNextId := 0, ringPrevId := 0 }
  else if j = 1 then
    { kind := NodeKind.ELEMENT, value := "a", parent := some 0,
      firstChild := some 3, inputLineNum := 1,
      closingType := ClosingType.OPEN, ringNextId := 2, ringPrevId := 2 }
  else if j = 2 then
    { kind := NodeKind.ELEMENT, value := "b", parent := some 0,
      firstChild := none, inputLineNum := 2,
      closingType := ClosingType.OPEN, ringNextId := 1, ringPrevId := 1 }
  else if j = 3 then
    { kind := NodeKind.TEXT, value := "hello", parent := some 1,
      firstChild := none, inputLineNum := 1,
      closingType := ClosingType.OPEN, ringNextId := 3, ringPrevId := 3 }
  else
    { kind := NodeKind.ELEMENT, value := "z", parent := some j,
      firstChild := none, inputLineNum := 3,
      closingType := ClosingType.OPEN, ringNextId := j, ringPrevId := j }

/-- The skeleton of `wClearArena` below node 0. -/
def wForest : IdForest :=
  IdForest.cons (IdTree.mk 1 (IdForest.cons (IdTree.mk 3 IdForest.nil)
    IdForest.nil))
    (IdForest.cons (IdTree.mk 2 IdForest.nil) IdForest.nil)

/-- C8: `clear()` destroys every child by repeatedly destroying the
node at `firstChild` until none remain — each child's own destruction
first clears its descendants, a post-order teardown of the whole
child forest — then resets `value` to empty and `lineNumber` to 0;
running `clear()` again on the now-empty node changes nothing, so
`clear()` is idempotent. -/
theorem c8_clear_teardown_idempotent
    (fuel : Nat) (a : Arena) (i : Nat) (cs : IdForest)
    (hfuel : needsF cs + 1 ≤ fuel)
    (hrep : childrenRep a i (roots cs))
    (hrepf : repF a cs)
    (hnd : (i :: flatF cs).Nodup) :
    ((clearNode fuel a i) i).firstChild = none ∧
    ((clearNode fuel a i) i).value = "" ∧
    ((clearNode fuel a i) i).inputLineNum = 0 ∧
    (∀ j ∈ flatF cs, (clearNode fuel a i) j = deadNode (a j) j) ∧
    clearNode fuel (clearNode fuel a i) i = clearNode fuel a i := by
  obtain ⟨N1, N2, N3⟩ := clearNode_spec fuel a i cs hfuel hrep hrepf hnd
  refine ⟨by rw [N1], by rw [N1], by rw [N1], N2, ?_⟩
  exact clearNode_cleared fuel _ i (by rw [N1]) (by rw [N1]) (by rw [N1])

/-- Witness for C8 at a concrete input: clearing document node 0 of
`wClearArena` (children: element 1 with text child 3, element 2)
empties it, kills nodes 1, 3 and 2, and a second clear is a no-op. -/
theorem c8_clear_teardown_idempotent_witness :
    (needsF wForest + 1 ≤ 8 ∧ childrenRep wClearArena 0 (roots wForest) ∧
      repF wClearArena wForest ∧ ((0 : Nat) :: flatF wForest).Nodup) ∧
    (((clearNode 8 wClearArena 0) 0).firstChild = none ∧
      ((clearNode 8 wClearArena 0) 0).value = "" ∧
      ((clearNode 8 wClearArena 0) 0).inputLineNum = 0 ∧
      (∀ j ∈ flatF wForest,
        (clearNode 8 wClearArena 0) j = deadNode (wClearArena j) j) ∧
      clearNode 8 (clearNode 8 wClearArena 0) 0 =
        clearNode 8 wClearArena 0) :=
  ⟨⟨by decide, by decide, by decide, by decide⟩,
    c8_clear_teardown_idempotent 8 wClearArena 0 wForest (by decide)
      (by decide) (by decide) (by decide)⟩

end ts.xml
